import Mathlib

/-!
# BFI: a shallow embedding of `src/main.cpp`

The interpreter is a single `main`.  The embedding covers lines 95-267, from
the point where the source file has been opened, mapped and closed
(`bfi_main`), and lines 59-93, where the file is mapped and closed
(`bfi_main_file`): the source bytes are a `List Nat`, standard input is the
list of bytes still to be read, standard output the list of bytes written so
far.

* Pointers are offsets: `src_iter` is the offset of the execution cursor from
  `src_file_map` (an `Int`, since line 259 steps one below a saved cursor
  before line 145 steps forward again), `data_ptr` the offset of the data
  pointer from `mem_buf.data()`.
* The cell array is a function from offsets to bytes; the number of cells `N`
  is a parameter of the dispatch, `MEM_BUF_SIZE` in the program.
* `std::size_t` counters wrap modulo `SIZE_MOD`.
* The dispatch loop need not terminate, so it is run for a given number of
  passes (`fuel`).
* Facts of the environment are parameters: whether `operator new` returns a
  buffer and whether `munmap` succeeds, and for `bfi_main_file` also whether
  `mmap` of a non-empty file and `close` succeed.

The definitions come first: the embedding of the code, then what the
properties are stated with (matching brackets, nesting, the source without
its comments, structured programs and their semantics).  The theorems follow,
each property preceded by the lemmas it needs.
-/

namespace BFI

/-! ## Constants -/

/-- Number of values of `std::size_t` on the 64-bit target; the counters
`open_bracket_count`, `closed_bracket_count` and `skip_loop_counter` wrap
modulo this. -/
def SIZE_MOD : Nat := 18446744073709551616

/-- The constant `MEM_BUF_SIZE = 30'720` of line 9. -/
def MEM_BUF_SIZE : Nat := 30720

def EXIT_SUCCESS : Nat := 0

def EXIT_FAILURE : Nat := 1

/-! ## Bracket counting (lines 95-113) -/

/-- The counting loop of lines 98-113 over the bytes still to be scanned; the
pair is `(open_bracket_count, closed_bracket_count)`.  `'['` is 91 and `']'`
is 93. -/
def count_brackets : List Nat → Nat × Nat → Nat × Nat
  | [], acc => acc
  | c :: rest, (open_bracket_count, closed_bracket_count) =>
    if c = 91 then
      count_brackets rest ((open_bracket_count + 1) % SIZE_MOD, closed_bracket_count)
    else if c = 93 then
      count_brackets rest (open_bracket_count, (closed_bracket_count + 1) % SIZE_MOD)
    else
      count_brackets rest (open_bracket_count, closed_bracket_count)

/-! ## Diagnostics and states -/

/-- The operation named in an "invalid memory address" diagnostic. -/
inductive Operation
  | incrementing
  | decrementing
  | reading
  | writing
  deriving DecidableEq, Repr

/-- The conditions on which `main` gives up after the source is mapped.  The
first three print a diagnostic (lines 116, 150/164/192/206/222, 251); a failed
allocation of the loop stack (line 137) prints nothing. -/
inductive Fault
  | UnbalancedBrackets (open_bracket_count closed_bracket_count : Nat)
  | InvalidAddress (op : Operation)
  | UnexpectedLoopEnd
  | AllocFailure
  deriving DecidableEq, Repr

/-- The variables of the dispatch loop together with the two byte streams.
`mem_buf` gives the byte held at each offset of the cell array (the offsets of
its cells are those below the number of cells); `loop_stack` lists the saved
cursors, the most recent first (the entry just below `loop_stack_ptr`). -/
structure State where
  src_iter : Int
  data_ptr : Nat
  mem_buf : Nat → Nat
  loop_stack : List Int
  input : List Nat
  output : List Nat

/-- The assignment `*p = v` into the cell array. -/
def store (mem_buf : Nat → Nat) (p v : Nat) : Nat → Nat :=
  fun q => if q = p then v else mem_buf q

/-- State on entry to the dispatch loop (lines 128-143): a zeroed `mem_buf`,
`data_ptr` at its first cell, an empty loop stack, the cursor at the first
source byte. -/
def init_state (input : List Nat) : State :=
  { src_iter := 0, data_ptr := 0, mem_buf := fun _ => 0,
    loop_stack := [], input := input, output := [] }

/-- The byte `*src_iter`, when the cursor is inside the mapping. -/
def src_at (src : List Nat) (i : Int) : Option Nat :=
  if i < 0 then none else src[i.toNat]?

/-- The `do ... while` scan of lines 235-246.  The first argument lists the
source bytes after the cursor, which are the bytes the successive
`*++src_iter` read; the result is the cursor when the counter reaches zero,
and `none` when the scan reads beyond the last source byte. -/
def skip_loop : List Nat → Int → Nat → Option Int
  | [], _, _ => none
  | c :: rest, src_iter, skip_loop_counter =>
    let src_iter := src_iter + 1
    let skip_loop_counter :=
      if c = 91 then (skip_loop_counter + 1) % SIZE_MOD
      else if c = 93 then (skip_loop_counter + SIZE_MOD - 1) % SIZE_MOD
      else skip_loop_counter
    if skip_loop_counter ≠ 0 then skip_loop rest src_iter skip_loop_counter
    else some src_iter

/-- What one pass through the `for` statement of lines 142-264 does. -/
inductive StepResult
  /-- the body ran and `++src_iter` was done -/
  | next (s : State)
  /-- `src_iter == src_file_map_end`: the loop is left -/
  | halt
  /-- a diagnostic condition: the body returns `try_munmap()` -/
  | fail (d : Fault)
  /-- a read or write outside `mem_buf` or outside the mapped source -/
  | undefined

/-- The `switch` of lines 147-263 on the byte `c` under the cursor, followed
by the `++src_iter` of line 145.  `N` is the number of cells, so `mem_buf_end`
is offset `N` and `mem_buf_last` is offset `N - 1`; dereferencing `data_ptr`
beyond `mem_buf_end` is undefined.  Bytes: `+` 43, `,` 44, `-` 45, `.` 46,
`<` 60, `>` 62, `[` 91, `]` 93. -/
def dispatch (N : Nat) (src : List Nat) (s : State) (c : Nat) : StepResult :=
  if c = 43 then
    if s.data_ptr = N then .fail (.InvalidAddress .incrementing)
    else if N < s.data_ptr then .undefined
    else
      .next { s with mem_buf := store s.mem_buf s.data_ptr ((s.mem_buf s.data_ptr + 1) % 256),
                     src_iter := s.src_iter + 1 }
  else if c = 45 then
    if s.data_ptr = N then .fail (.InvalidAddress .decrementing)
    else if N < s.data_ptr then .undefined
    else
      .next { s with mem_buf := store s.mem_buf s.data_ptr
                                  ((s.mem_buf s.data_ptr + 256 - 1) % 256),
                     src_iter := s.src_iter + 1 }
  else if c = 62 then
    if s.data_ptr = N - 1 then .next { s with data_ptr := 0, src_iter := s.src_iter + 1 }
    else .next { s with data_ptr := s.data_ptr + 1, src_iter := s.src_iter + 1 }
  else if c = 60 then
    if s.data_ptr = 0 then .next { s with data_ptr := N - 1, src_iter := s.src_iter + 1 }
    else .next { s with data_ptr := s.data_ptr - 1, src_iter := s.src_iter + 1 }
  else if c = 46 then
    if s.data_ptr = N then .fail (.InvalidAddress .reading)
    else if N < s.data_ptr then .undefined
    else
      .next { s with output := s.output ++ [s.mem_buf s.data_ptr],
                     src_iter := s.src_iter + 1 }
  else if c = 44 then
    if s.data_ptr = N then .fail (.InvalidAddress .writing)
    else
      match s.input with
      | [] => .next { s with src_iter := s.src_iter + 1 }
      | b :: rest =>
        if N < s.data_ptr then .undefined
        else
          .next { s with mem_buf := store s.mem_buf s.data_ptr (b % 256), input := rest,
                         src_iter := s.src_iter + 1 }
  else if c = 91 then
    if s.data_ptr = N then .fail (.InvalidAddress .reading)
    else if N < s.data_ptr then .undefined
    else if s.mem_buf s.data_ptr ≠ 0 then
      .next { s with loop_stack := s.src_iter :: s.loop_stack, src_iter := s.src_iter + 1 }
    else
      match skip_loop (src.drop (s.src_iter.toNat + 1)) s.src_iter 1 with
      | none => .undefined
      | some j => .next { s with src_iter := j + 1 }
  else if c = 93 then
    match s.loop_stack with
    | [] => .fail .UnexpectedLoopEnd
    | p :: rest => .next { s with loop_stack := rest, src_iter := (p - 1) + 1 }
  else .next { s with src_iter := s.src_iter + 1 }

/-- One pass through the `for` statement of lines 142-264: the test
`src_iter != src_file_map_end`, then the `switch` on `*src_iter` and
`++src_iter`. -/
def step (N : Nat) (src : List Nat) (s : State) : StepResult :=
  if s.src_iter = src.length then .halt
  else
    match src_at src s.src_iter with
    | none => .undefined
    | some c => dispatch N src s c

/-- How the dispatch loop ended, with the state it ended in. -/
inductive Outcome
  /-- the cursor reached `src_file_map_end` -/
  | finished (s : State)
  /-- the instruction under the cursor of `s` met a diagnostic condition -/
  | failed (d : Fault) (s : State)
  /-- the instruction under the cursor of `s` left the buffers -/
  | undefined (s : State)
  /-- still running after the given number of passes -/
  | out_of_fuel (s : State)

def Outcome.state : Outcome → State
  | .finished s => s
  | .failed _ s => s
  | .undefined s => s
  | .out_of_fuel s => s

/-- The diagnostic condition a run ended on, if it ended on one. -/
def Outcome.fault : Outcome → Option Fault
  | .failed d _ => some d
  | _ => none

/-- Whether the dispatch loop ran to the end of the source. -/
def Outcome.completed : Outcome → Bool
  | .finished _ => true
  | _ => false

/-- The dispatch loop, at most `fuel` passes. -/
def run_loop (N : Nat) (src : List Nat) : Nat → State → Outcome
  | 0, s => .out_of_fuel s
  | fuel + 1, s =>
    match step N src s with
    | .next s' => run_loop N src fuel s'
    | .halt => .finished s
    | .fail d => .failed d s
    | .undefined => .undefined s

/-- Cursor positions whose byte the `switch` of line 147 dispatches, in order,
during at most `fuel` passes.  The bytes read by the scan of lines 235-246 are
not dispatched. -/
def dispatched (N : Nat) (src : List Nat) : Nat → State → List Int
  | 0, _ => []
  | fuel + 1, s =>
    match step N src s with
    | .next s' => s.src_iter :: dispatched N src fuel s'
    | .halt => []
    | .fail _ => [s.src_iter]
    | .undefined => [s.src_iter]

/-- The lambda `try_munmap` of lines 77-89. -/
def try_munmap (munmap_ok : Bool) : Nat :=
  if munmap_ok then EXIT_SUCCESS else EXIT_FAILURE

/-- A run of `main`: how it ended and the value it returned (`none` when it
did not return). -/
structure Run where
  outcome : Outcome
  status : Option Nat

/-- Lines 95-267 of `main`.  `alloc_ok` says whether `operator new` of line
135 returned a buffer, `munmap_ok` whether `munmap` succeeds.  A run rejected
before the dispatch loop carries the initial state: nothing was read or
written. -/
def bfi_main (N : Nat) (src input : List Nat) (alloc_ok munmap_ok : Bool) (fuel : Nat) : Run :=
  let counts := count_brackets src (0, 0)
  if counts.1 ≠ counts.2 then
    { outcome := .failed (.UnbalancedBrackets counts.1 counts.2) (init_state input),
      status := some (try_munmap munmap_ok) }
  else if alloc_ok = false then
    { outcome := .failed .AllocFailure (init_state input),
      status := some (try_munmap munmap_ok) }
  else
    match run_loop N src fuel (init_state input) with
    | .finished s => { outcome := .finished s, status := some (try_munmap munmap_ok) }
    | .failed d s => { outcome := .failed d s, status := some (try_munmap munmap_ok) }
    | .undefined s => { outcome := .undefined s, status := none }
    | .out_of_fuel s => { outcome := .out_of_fuel s, status := none }

/-- States of the dispatch loop that a run on `src` and `input` passes
through. -/
inductive Reachable (N : Nat) (src input : List Nat) : State → Prop
  | init : Reachable N src input (init_state input)
  | step {s s' : State} :
      Reachable N src input s → step N src s = .next s' → Reachable N src input s'

/-- The source of the usual "Hello World!" program. -/
def hello_world : List Nat :=
  "++++++++[>++++[>++>+++>+++>+<<<<-]>+>+>->>+[<]<-]>>.>---.+++++++..+++.>>.<-.<.+++.------.--------.>>+.>++.".toList.map Char.toNat

/-! ## Replacing the unread input -/

/-- The state `s` with the unread input replaced by `i`. -/
def State.set_input (s : State) (i : List Nat) : State :=
  { s with input := i }

def StepResult.set_input : StepResult → List Nat → StepResult
  | .next s, i => .next (s.set_input i)
  | .halt, _ => .halt
  | .fail d, _ => .fail d
  | .undefined, _ => .undefined

def Outcome.set_input : Outcome → List Nat → Outcome
  | .finished s, i => .finished (s.set_input i)
  | .failed d s, i => .failed d (s.set_input i)
  | .undefined s, i => .undefined (s.set_input i)
  | .out_of_fuel s, i => .out_of_fuel (s.set_input i)

/-! ## Matching brackets, by nesting depth -/

/-- Nesting depth after the byte at offset `k`, counted from the `[` at offset
`i < k`: one for that `[`, plus one for every `[` and minus one for every `]`
among the bytes at offsets `i + 1` to `k`. -/
def depth_after (src : List Nat) (i k : Nat) : Int :=
  1 + (((src.drop (i + 1)).take (k - i)).count 91 : Int)
    - (((src.drop (i + 1)).take (k - i)).count 93 : Int)

/-- The `]` at offset `j` matches the `[` at offset `i`: `j` is the first
offset after `i` at which the nesting depth is zero. -/
def Matching (src : List Nat) (i j : Nat) : Prop :=
  src[i]? = some 91 ∧ src[j]? = some 93 ∧ i < j ∧ depth_after src i j = 0 ∧
    ∀ k, k < j → i < k → depth_after src i k ≠ 0

/-! ## Nesting -/

/-- Excess of `[` bytes over `]` bytes in a piece of source. -/
def balance (bs : List Nat) : Int :=
  (bs.count 91 : Int) - (bs.count 93 : Int)

/-- A source is well nested when it has as many `[` as `]` and no prefix of it
has more `]` than `[`. -/
def well_nested (src : List Nat) : Prop :=
  balance src = 0 ∧ ∀ k, k ≤ src.length → 0 ≤ balance (src.take k)

/-- The saved cursors of a loop stack (most recent first) below the cursor `c`:
each is the offset of a `[`, lies below the entry above it (the most recent
below `c`), and the excess of `[` before it is the number of entries under
it. -/
def stack_chain (src : List Nat) : List Int → Int → Prop
  | [], _ => True
  | p :: rest, c =>
    0 ≤ p ∧ p < c ∧ src_at src p = some 91 ∧
      balance (src.take p.toNat) = (rest.length : Int) ∧ stack_chain src rest p

/-- What holds of the cursor and the loop stack in every state of a run: the
cursor is inside the source or at its end, the stack is a `stack_chain` below
the cursor, its depth is the excess of `[` before the cursor, and no prefix
up to the cursor has more `]` than `[`. -/
def cursor_inv (src : List Nat) (s : State) : Prop :=
  0 ≤ s.src_iter ∧ s.src_iter ≤ (src.length : Int) ∧
    stack_chain src s.loop_stack s.src_iter ∧
    balance (src.take s.src_iter.toNat) = (s.loop_stack.length : Int) ∧
    ∀ k, k ≤ s.src_iter.toNat → 0 ≤ balance (src.take k)

/-- Number of `char const*` entries that fit the buffer of line 135, which is
asked for as `open_bracket_count * sizeof(char*)` bytes in `std::size_t`
arithmetic, a pointer taking 8 bytes. -/
def loop_stack_capacity (src : List Nat) : Nat :=
  ((count_brackets src (0, 0)).1 * 8 % SIZE_MOD) / 8

/-! ## Sources without their comments -/

/-- Whether a byte is one of the eight instruction bytes `+ , - . < > [ ]`. -/
def is_instr (c : Nat) : Bool :=
  c = 43 || c = 44 || c = 45 || c = 46 || c = 60 || c = 62 || c = 91 || c = 93

/-- The source with every byte other than the eight instruction bytes
removed. -/
def strip_comments (src : List Nat) : List Nat :=
  src.filter is_instr

/-- The offset in `strip_comments src` that corresponds to the offset `p` in
`src`: the number of instruction bytes before `p`. -/
def strip_pos (src : List Nat) (p : Int) : Int :=
  ((strip_comments (src.take p.toNat)).length : Int)

def StepResult.map (f : State → State) : StepResult → StepResult
  | .next s => .next (f s)
  | .halt => .halt
  | .fail d => .fail d
  | .undefined => .undefined

def Outcome.map (f : State → State) : Outcome → Outcome
  | .finished s => .finished (f s)
  | .failed d s => .failed d (f s)
  | .undefined s => .undefined (f s)
  | .out_of_fuel s => .out_of_fuel (f s)

def Run.map (f : State → State) (r : Run) : Run :=
  { outcome := r.outcome.map f, status := r.status }

/-- Whether the run used up its passes without ending. -/
def Outcome.ran_out : Outcome → Bool
  | .out_of_fuel _ => true
  | _ => false

/-! ## Structured programs -/

/-- A program in structured form: nothing, a byte other than a bracket
followed by a program, or a loop (its body) followed by a program. -/
inductive Prog
  | done
  | op (c : Nat) (rest : Prog)
  | loop (body rest : Prog)
  deriving DecidableEq, Repr

/-- The source bytes of a structured program. -/
def Prog.flatten : Prog → List Nat
  | .done => []
  | .op c rest => c :: rest.flatten
  | .loop body rest => 91 :: (body.flatten ++ 93 :: rest.flatten)

/-- No `op` of the program carries a bracket. -/
def Prog.wf : Prog → Prop
  | .done => True
  | .op c rest => c ≠ 91 ∧ c ≠ 93 ∧ rest.wf
  | .loop body rest => body.wf ∧ rest.wf

/-- One parsed item: a byte other than a bracket, or a loop with its body. -/
inductive Item
  | op (c : Nat)
  | loop (body : Prog)
  deriving DecidableEq, Repr

/-- The program made of the items (given last first) followed by `p`. -/
def Prog.prepend : List Item → Prog → Prog
  | [], p => p
  | .op c :: items, p => Prog.prepend items (.op c p)
  | .loop body :: items, p => Prog.prepend items (.loop body p)

/-- The parser, reading the bytes left to right: `cur` holds the items of the
block being read (last first), `stk` the items of the enclosing blocks read so
far (innermost first). -/
def parse_go : List Nat → List Item → List (List Item) → Option Prog
  | [], cur, [] => some (Prog.prepend cur .done)
  | [], _, _ :: _ => none
  | c :: cs, cur, stk =>
    if c = 91 then parse_go cs [] (cur :: stk)
    else if c = 93 then
      match stk with
      | [] => none
      | outer :: stk' => parse_go cs (.loop (Prog.prepend cur .done) :: outer) stk'
    else parse_go cs (.op c :: cur) stk

/-- The structured program of a source, when its brackets are well nested. -/
def parse (src : List Nat) : Option Prog :=
  parse_go src [] []

/-- What a structured program works on: the data pointer, the cells, the
unread input and the output. -/
structure Mem where
  data_ptr : Nat
  mem_buf : Nat → Nat
  input : List Nat
  output : List Nat

def State.mem (s : State) : Mem :=
  { data_ptr := s.data_ptr, mem_buf := s.mem_buf, input := s.input, output := s.output }

/-- The state with cursor `c`, loop stack `st` and the rest from `m`. -/
def mk_state (c : Int) (st : List Int) (m : Mem) : State :=
  { src_iter := c, data_ptr := m.data_ptr, mem_buf := m.mem_buf, loop_stack := st,
    input := m.input, output := m.output }

/-- The effect of one byte other than a bracket on a tape of `N` cells: `+`
and `-` change the current cell modulo 256, `>` and `<` move the data pointer
round the tape, `.` appends the current cell to the output, `,` stores the
next input byte if there is one; any other byte does nothing. -/
def exec_op (N : Nat) (c : Nat) (m : Mem) : Mem :=
  if c = 43 then
    { m with mem_buf := store m.mem_buf m.data_ptr ((m.mem_buf m.data_ptr + 1) % 256) }
  else if c = 45 then
    { m with mem_buf := store m.mem_buf m.data_ptr ((m.mem_buf m.data_ptr + 256 - 1) % 256) }
  else if c = 62 then
    { m with data_ptr := if m.data_ptr = N - 1 then 0 else m.data_ptr + 1 }
  else if c = 60 then
    { m with data_ptr := if m.data_ptr = 0 then N - 1 else m.data_ptr - 1 }
  else if c = 46 then
    { m with output := m.output ++ [m.mem_buf m.data_ptr] }
  else if c = 44 then
    match m.input with
    | [] => m
    | b :: rest => { m with mem_buf := store m.mem_buf m.data_ptr (b % 256), input := rest }
  else m

/-- The structured semantics: the bytes act one after the other, and a loop is
`while the current cell is not 0 do body`.  `none` when the given `fuel` does
not suffice. -/
def exec (N : Nat) : Nat → Prog → Mem → Option Mem
  | 0, _, _ => none
  | _ + 1, .done, m => some m
  | fuel + 1, .op c rest, m => exec N fuel rest (exec_op N c m)
  | fuel + 1, .loop body rest, m =>
    if m.mem_buf m.data_ptr = 0 then exec N fuel rest m
    else
      match exec N fuel body m with
      | none => none
      | some m' => exec N fuel (.loop body rest) m'

/-- The run on `src` from `s` is, after `k` passes, in the state `s'`. -/
def run_reaches (N : Nat) (src : List Nat) (k : Nat) (s s' : State) : Prop :=
  ∀ fuel, run_loop N src (k + fuel) s = run_loop N src fuel s'

/-- The source bytes of a block's items (given last first). -/
def items_bytes (cur : List Item) : List Nat :=
  (Prog.prepend cur .done).flatten

/-- The source bytes read before the block being read: those of the enclosing
blocks, each followed by the `[` that opened the next one. -/
def enclosing_bytes : List (List Item) → List Nat
  | [] => []
  | outer :: stk => enclosing_bytes stk ++ (items_bytes outer ++ [91])

def Item.wf : Item → Prop
  | .op c => c ≠ 91 ∧ c ≠ 93
  | .loop body => body.wf

/-! ## Mapping the source file (lines 59-93) -/

/-- How `main` went on from the size of the opened source file. -/
inductive FileRun
  /-- `mmap` returned `MAP_FAILED`: the diagnostic of line 65, then
  `return try_close()` -/
  | mmap_failed (status : Nat)
  /-- `close` failed once the file was mapped: `return try_munmap()`, line 92 -/
  | close_failed (status : Nat)
  /-- the file was mapped and closed: lines 95-267 -/
  | ran (r : Run)

def FileRun.map (f : State → State) : FileRun → FileRun
  | .mmap_failed status => .mmap_failed status
  | .close_failed status => .close_failed status
  | .ran r => .ran (r.map f)

/-- Whether the dispatch loop was entered and used up its passes without
ending. -/
def FileRun.ran_out : FileRun → Bool
  | .ran r => r.outcome.ran_out
  | _ => false

theorem count_brackets_eq (src : List Nat) : ∀ o c : Nat,
    o + src.length < SIZE_MOD → c + src.length < SIZE_MOD →
    count_brackets src (o, c) = (o + src.count 91, c + src.count 93) := by
  induction src with
  | nil => intro o c _ _; simp [count_brackets]
  | cons b rest ih =>
    intro o c ho hc
    simp only [List.length_cons] at ho hc
    unfold count_brackets
    by_cases h1 : b = 91
    · subst h1
      have hm : (o + 1) % SIZE_MOD = o + 1 := Nat.mod_eq_of_lt (by omega)
      rw [if_pos rfl, hm, ih (o + 1) c (by omega) (by omega)]
      simp [List.count_cons]
      omega
    · by_cases h2 : b = 93
      · subst h2
        have hm : (c + 1) % SIZE_MOD = c + 1 := Nat.mod_eq_of_lt (by omega)
        rw [if_neg h1, if_pos rfl, hm, ih o (c + 1) (by omega) (by omega)]
        simp [List.count_cons]
        omega
      · rw [if_neg h1, if_neg h2, ih o c (by omega) (by omega)]
        have e1 : ¬ (91 = b) := fun h => h1 h.symm
        have e2 : ¬ (93 = b) := fun h => h2 h.symm
        simp [List.count_cons, h1, h2]

theorem count_brackets_zero (src : List Nat) (hlen : src.length < SIZE_MOD) :
    count_brackets src (0, 0) = (src.count 91, src.count 93) := by
  have h := count_brackets_eq src 0 0 (by omega) (by omega)
  simpa using h

theorem src_at_some {src : List Nat} {i : Int} {c : Nat} (h : src_at src i = some c) :
    0 ≤ i ∧ i.toNat < src.length ∧ src[i.toNat]? = some c := by
  unfold src_at at h
  split at h
  · cases h
  · refine ⟨by omega, ?_, h⟩
    by_contra hge
    rw [List.getElem?_eq_none (by omega)] at h
    cases h

theorem dispatch_incr (N : Nat) (src : List Nat) (s : State) :
    dispatch N src s 43 =
      if s.data_ptr = N then .fail (.InvalidAddress .incrementing)
      else if N < s.data_ptr then .undefined
      else .next { s with mem_buf := store s.mem_buf s.data_ptr ((s.mem_buf s.data_ptr + 1) % 256),
                          src_iter := s.src_iter + 1 } := rfl

theorem dispatch_decr (N : Nat) (src : List Nat) (s : State) :
    dispatch N src s 45 =
      if s.data_ptr = N then .fail (.InvalidAddress .decrementing)
      else if N < s.data_ptr then .undefined
      else .next { s with mem_buf := store s.mem_buf s.data_ptr
                                       ((s.mem_buf s.data_ptr + 256 - 1) % 256),
                          src_iter := s.src_iter + 1 } := rfl

theorem dispatch_right (N : Nat) (src : List Nat) (s : State) :
    dispatch N src s 62 =
      if s.data_ptr = N - 1 then .next { s with data_ptr := 0, src_iter := s.src_iter + 1 }
      else .next { s with data_ptr := s.data_ptr + 1, src_iter := s.src_iter + 1 } := rfl

theorem dispatch_left (N : Nat) (src : List Nat) (s : State) :
    dispatch N src s 60 =
      if s.data_ptr = 0 then .next { s with data_ptr := N - 1, src_iter := s.src_iter + 1 }
      else .next { s with data_ptr := s.data_ptr - 1, src_iter := s.src_iter + 1 } := rfl

theorem dispatch_put (N : Nat) (src : List Nat) (s : State) :
    dispatch N src s 46 =
      if s.data_ptr = N then .fail (.InvalidAddress .reading)
      else if N < s.data_ptr then .undefined
      else .next { s with output := s.output ++ [s.mem_buf s.data_ptr],
                          src_iter := s.src_iter + 1 } := rfl

theorem dispatch_get (N : Nat) (src : List Nat) (s : State) :
    dispatch N src s 44 =
      if s.data_ptr = N then .fail (.InvalidAddress .writing)
      else
        match s.input with
        | [] => .next { s with src_iter := s.src_iter + 1 }
        | b :: rest =>
          if N < s.data_ptr then .undefined
          else .next { s with mem_buf := store s.mem_buf s.data_ptr (b % 256), input := rest,
                              src_iter := s.src_iter + 1 } := rfl

theorem dispatch_open (N : Nat) (src : List Nat) (s : State) :
    dispatch N src s 91 =
      if s.data_ptr = N then .fail (.InvalidAddress .reading)
      else if N < s.data_ptr then .undefined
      else if s.mem_buf s.data_ptr ≠ 0 then
        .next { s with loop_stack := s.src_iter :: s.loop_stack, src_iter := s.src_iter + 1 }
      else
        match skip_loop (src.drop (s.src_iter.toNat + 1)) s.src_iter 1 with
        | none => .undefined
        | some j => .next { s with src_iter := j + 1 } := rfl

theorem dispatch_close (N : Nat) (src : List Nat) (s : State) :
    dispatch N src s 93 =
      match s.loop_stack with
      | [] => .fail .UnexpectedLoopEnd
      | p :: rest => .next { s with loop_stack := rest, src_iter := (p - 1) + 1 } := rfl

theorem dispatch_other (N : Nat) (src : List Nat) (s : State) (c : Nat)
    (h43 : c ≠ 43) (h45 : c ≠ 45) (h62 : c ≠ 62) (h60 : c ≠ 60) (h46 : c ≠ 46) (h44 : c ≠ 44)
    (h91 : c ≠ 91) (h93 : c ≠ 93) :
    dispatch N src s c = .next { s with src_iter := s.src_iter + 1 } := by
  unfold dispatch
  rw [if_neg h43, if_neg h45, if_neg h62, if_neg h60, if_neg h46, if_neg h44, if_neg h91,
    if_neg h93]

theorem dispatch_fail_cases {N : Nat} {src : List Nat} {s : State} {c : Nat} {d : Fault}
    (h : dispatch N src s c = .fail d) :
    d = .UnexpectedLoopEnd ∨ ∃ op, d = .InvalidAddress op := by
  by_cases h93 : c = 93
  · subst h93; rw [dispatch_close] at h
    split at h
    · cases h; exact Or.inl rfl
    · cases h
  by_cases h43 : c = 43
  · subst h43; rw [dispatch_incr] at h
    split_ifs at h
    cases h
    exact Or.inr ⟨_, rfl⟩
  by_cases h45 : c = 45
  · subst h45; rw [dispatch_decr] at h
    split_ifs at h
    cases h
    exact Or.inr ⟨_, rfl⟩
  by_cases h62 : c = 62
  · subst h62; rw [dispatch_right] at h
    split_ifs at h
  by_cases h60 : c = 60
  · subst h60; rw [dispatch_left] at h
    split_ifs at h
  by_cases h46 : c = 46
  · subst h46; rw [dispatch_put] at h
    split_ifs at h
    cases h
    exact Or.inr ⟨_, rfl⟩
  by_cases h44 : c = 44
  · subst h44; rw [dispatch_get] at h
    split_ifs at h
    all_goals try split at h
    all_goals cases h
    all_goals exact Or.inr ⟨_, rfl⟩
  by_cases h91 : c = 91
  · subst h91; rw [dispatch_open] at h
    split_ifs at h
    all_goals try split at h
    all_goals cases h
    all_goals exact Or.inr ⟨_, rfl⟩
  rw [dispatch_other N src s c h43 h45 h62 h60 h46 h44 h91 h93] at h
  cases h

theorem step_fail_cases {N : Nat} {src : List Nat} {s : State} {d : Fault}
    (h : step N src s = .fail d) :
    d = .UnexpectedLoopEnd ∨ ∃ op, d = .InvalidAddress op := by
  unfold step at h
  split_ifs at h
  split at h
  · cases h
  · exact dispatch_fail_cases h


/-! ## The bracket balance check -/

theorem run_loop_fault_cases {N : Nat} {src : List Nat} :
    ∀ (fuel : Nat) (s : State) (d : Fault), (run_loop N src fuel s).fault = some d →
      d = .UnexpectedLoopEnd ∨ ∃ op, d = .InvalidAddress op := by
  intro fuel
  induction fuel with
  | zero => intro s d h; simp [run_loop, Outcome.fault] at h
  | succ n ih =>
    intro s d h
    unfold run_loop at h
    cases hstep : step N src s with
    | next s' => rw [hstep] at h; exact ih s' d h
    | halt => rw [hstep] at h; simp [Outcome.fault] at h
    | fail e =>
      rw [hstep] at h
      simp only [Outcome.fault, Option.some.injEq] at h
      subst h
      exact step_fail_cases hstep
    | undefined => rw [hstep] at h; simp [Outcome.fault] at h

theorem bfi_main_unbalanced (N : Nat) (src input : List Nat) (alloc_ok munmap_ok : Bool)
    (fuel : Nat) (hlen : src.length < SIZE_MOD) (hne : src.count 91 ≠ src.count 93) :
    bfi_main N src input alloc_ok munmap_ok fuel =
      { outcome := .failed (.UnbalancedBrackets (src.count 91) (src.count 93)) (init_state input),
        status := some (try_munmap munmap_ok) } := by
  unfold bfi_main
  simp only [count_brackets_zero src hlen]
  rw [if_pos hne]

theorem bfi_main_balanced (N : Nat) (src input : List Nat) (alloc_ok munmap_ok : Bool)
    (fuel : Nat) (hlen : src.length < SIZE_MOD) (heq : src.count 91 = src.count 93) :
    bfi_main N src input alloc_ok munmap_ok fuel =
      if alloc_ok = false then
        { outcome := .failed .AllocFailure (init_state input),
          status := some (try_munmap munmap_ok) }
      else
        match run_loop N src fuel (init_state input) with
        | .finished s => { outcome := .finished s, status := some (try_munmap munmap_ok) }
        | .failed d s => { outcome := .failed d s, status := some (try_munmap munmap_ok) }
        | .undefined s => { outcome := .undefined s, status := none }
        | .out_of_fuel s => { outcome := .out_of_fuel s, status := none } := by
  unfold bfi_main
  simp only [count_brackets_zero src hlen]
  rw [if_neg (not_not.mpr heq)]

theorem bfi_main_balanced_outcome (N : Nat) (src input : List Nat) (munmap_ok : Bool)
    (fuel : Nat) (hlen : src.length < SIZE_MOD) (heq : src.count 91 = src.count 93) :
    (bfi_main N src input true munmap_ok fuel).outcome = run_loop N src fuel (init_state input) := by
  rw [bfi_main_balanced N src input true munmap_ok fuel hlen heq]
  simp only [Bool.true_eq_false, if_false]
  cases run_loop N src fuel (init_state input) <;> rfl

/-- C3. The counting loop computes the number of `[` bytes and the number of
`]` bytes of the source (a source shorter than 2^64 bytes); a run is not
rejected as `UnbalancedBrackets` exactly when the two numbers are equal, and a
rejection reports exactly these two numbers. -/
theorem validator_counts (N : Nat) (src input : List Nat) (alloc_ok munmap_ok : Bool)
    (fuel : Nat) (hlen : src.length < SIZE_MOD) :
    count_brackets src (0, 0) = (src.count 91, src.count 93) ∧
    ((∀ o c, (bfi_main N src input alloc_ok munmap_ok fuel).outcome.fault
        ≠ some (.UnbalancedBrackets o c)) ↔ src.count 91 = src.count 93) ∧
    (src.count 91 ≠ src.count 93 →
      (bfi_main N src input alloc_ok munmap_ok fuel).outcome.fault
        = some (.UnbalancedBrackets (src.count 91) (src.count 93))) := by
  refine ⟨count_brackets_zero src hlen, ⟨?_, ?_⟩, ?_⟩
  · intro h
    by_contra hne
    apply h (src.count 91) (src.count 93)
    rw [bfi_main_unbalanced N src input alloc_ok munmap_ok fuel hlen hne]
    rfl
  · intro heq o c hf
    rw [bfi_main_balanced N src input alloc_ok munmap_ok fuel hlen heq] at hf
    cases alloc_ok with
    | false => simp [Outcome.fault] at hf
    | true =>
      simp only [Bool.true_eq_false, if_false] at hf
      have hcases := @run_loop_fault_cases N src fuel (init_state input)
      cases hrun : run_loop N src fuel (init_state input) with
      | finished s => rw [hrun] at hf; simp [Outcome.fault] at hf
      | failed d s =>
        rw [hrun] at hf
        simp only [Outcome.fault, Option.some.injEq] at hf
        have := hcases d (by rw [hrun]; rfl)
        subst hf
        rcases this with h | ⟨op, h⟩ <;> cases h
      | undefined s => rw [hrun] at hf; simp [Outcome.fault] at hf
      | out_of_fuel s => rw [hrun] at hf; simp [Outcome.fault] at hf
  · intro hne
    rw [bfi_main_unbalanced N src input alloc_ok munmap_ok fuel hlen hne]
    rfl

theorem validator_counts_witness :
    ([91, 43, 93, 93].length < SIZE_MOD ∧
      count_brackets [91, 43, 93, 93] (0, 0) = (1, 2) ∧
      [91, 43, 93, 93].count 91 ≠ [91, 43, 93, 93].count 93 ∧
      (bfi_main 1 [91, 43, 93, 93] [] true true 0).outcome.fault
        = some (.UnbalancedBrackets 1 2)) ∧
    ([91, 93].length < SIZE_MOD ∧ [91, 93].count 91 = [91, 93].count 93 ∧
      ∀ o c, (bfi_main 1 [91, 93] [] true true 0).outcome.fault
        ≠ some (.UnbalancedBrackets o c)) :=
  ⟨⟨by decide, (validator_counts 1 [91, 43, 93, 93] [] true true 0 (by decide)).1,
      by decide,
      (validator_counts 1 [91, 43, 93, 93] [] true true 0 (by decide)).2.2 (by decide)⟩,
    ⟨by decide, by decide,
      (validator_counts 1 [91, 93] [] true true 0 (by decide)).2.1.2 (by decide)⟩⟩

/-! ## Status returned on a failure -/

/-- C4 (the code at a failing input). On the source `]` the run is rejected as
`UnbalancedBrackets 0 1`, on the source `][` it fails with `UnexpectedLoopEnd`,
and on the source `+` with no loop stack allocated it gives up; when `munmap`
succeeds `main` returns `EXIT_SUCCESS` in all three runs.  In general, when
`munmap` succeeds no run returns `EXIT_FAILURE`, whatever the source. -/
theorem fatal_failure_returns_success (N : Nat) (input : List Nat) (alloc_ok : Bool)
    (fuel : Nat) :
    (bfi_main N [93] input alloc_ok true fuel).outcome.fault
        = some (.UnbalancedBrackets 0 1) ∧
    (bfi_main N [93] input alloc_ok true fuel).status = some EXIT_SUCCESS ∧
    (bfi_main N [93, 91] input true true (fuel + 1)).outcome.fault
        = some .UnexpectedLoopEnd ∧
    (bfi_main N [93, 91] input true true (fuel + 1)).status = some EXIT_SUCCESS ∧
    (bfi_main N [43] input false true fuel).outcome.fault = some .AllocFailure ∧
    (bfi_main N [43] input false true fuel).status = some EXIT_SUCCESS ∧
    ∀ src, (bfi_main N src input alloc_ok true fuel).status ≠ some EXIT_FAILURE := by
  refine ⟨rfl, rfl, rfl, rfl, rfl, rfl, ?_⟩
  intro src
  unfold bfi_main
  simp only []
  split_ifs
  · simp [try_munmap, EXIT_SUCCESS, EXIT_FAILURE]
  · simp [try_munmap, EXIT_SUCCESS, EXIT_FAILURE]
  · cases run_loop N src fuel (init_state input) <;>
      simp [try_munmap, EXIT_SUCCESS, EXIT_FAILURE]

/-- C5. A source (shorter than 2^64 bytes) whose numbers of `[` and `]` differ
is rejected as `UnbalancedBrackets` with these two numbers before the dispatch
loop is entered: the run ends in the initial state, with nothing written to
the output and the whole input still unread.  The source `]` is rejected with
the counts 0 and 1, not as `UnexpectedLoopEnd`. -/
theorem validation_precedes_execution (N : Nat) (src input : List Nat)
    (alloc_ok munmap_ok : Bool) (fuel : Nat) (hlen : src.length < SIZE_MOD)
    (hne : src.count 91 ≠ src.count 93) :
    (bfi_main N src input alloc_ok munmap_ok fuel).outcome
        = .failed (.UnbalancedBrackets (src.count 91) (src.count 93)) (init_state input) ∧
    (bfi_main N src input alloc_ok munmap_ok fuel).outcome.state.output = [] ∧
    (bfi_main N src input alloc_ok munmap_ok fuel).outcome.state.input = input ∧
    (bfi_main N [93] input alloc_ok munmap_ok fuel).outcome.fault
        = some (.UnbalancedBrackets 0 1) ∧
    (bfi_main N [93] input alloc_ok munmap_ok fuel).outcome.fault
        ≠ some .UnexpectedLoopEnd := by
  rw [bfi_main_unbalanced N src input alloc_ok munmap_ok fuel hlen hne]
  refine ⟨rfl, rfl, rfl, rfl, ?_⟩
  have h : (bfi_main N [93] input alloc_ok munmap_ok fuel).outcome.fault
      = some (.UnbalancedBrackets 0 1) := rfl
  rw [h]
  simp

theorem validation_precedes_execution_witness :
    [44, 46, 91].length < SIZE_MOD ∧ [44, 46, 91].count 91 ≠ [44, 46, 91].count 93 ∧
    ((bfi_main 2 [44, 46, 91] [7] true true 5).outcome
        = .failed (.UnbalancedBrackets ([44, 46, 91].count 91) ([44, 46, 91].count 93))
            (init_state [7]) ∧
      (bfi_main 2 [44, 46, 91] [7] true true 5).outcome.state.output = [] ∧
      (bfi_main 2 [44, 46, 91] [7] true true 5).outcome.state.input = [7] ∧
      (bfi_main 2 [93] [7] true true 5).outcome.fault = some (.UnbalancedBrackets 0 1) ∧
      (bfi_main 2 [93] [7] true true 5).outcome.fault ≠ some .UnexpectedLoopEnd) :=
  ⟨by decide, by decide,
    validation_precedes_execution 2 [44, 46, 91] [7] true true 5 (by decide) (by decide)⟩

/-! ## The loop close with an empty stack -/

theorem src_at_ne_length {src : List Nat} {i : Int} {c : Nat} (h : src_at src i = some c) :
    i ≠ src.length := by
  have := src_at_some h
  omega

theorem step_of_byte {N : Nat} {src : List Nat} {s : State} {c : Nat}
    (h : src_at src s.src_iter = some c) : step N src s = dispatch N src s c := by
  unfold step
  rw [if_neg (src_at_ne_length h), h]

/-- C6. In every state, reachable or not, whose cursor is on a `]` while the loop stack is
empty, the pass fails with `UnexpectedLoopEnd`, and the run ends there in that
same state (no further instruction, nothing more written).  The source `][`
has counts 1 and 1 and its run fails with `UnexpectedLoopEnd` in the initial
state, the output empty. -/
theorem unexpected_loop_end (N : Nat) (src input : List Nat) (s : State) (fuel : Nat)
    (hc : src_at src s.src_iter = some 93)
    (hs : s.loop_stack = []) :
    step N src s = .fail .UnexpectedLoopEnd ∧
    run_loop N src (fuel + 1) s = .failed .UnexpectedLoopEnd s ∧
    count_brackets [93, 91] (0, 0) = (1, 1) ∧
    ∀ munmap_ok : Bool, (bfi_main N [93, 91] input true munmap_ok (fuel + 1)).outcome
        = .failed .UnexpectedLoopEnd (init_state input) ∧
      (bfi_main N [93, 91] input true munmap_ok (fuel + 1)).outcome.state.output = [] := by
  have hstep : step N src s = .fail .UnexpectedLoopEnd := by
    rw [step_of_byte hc, dispatch_close, hs]
  refine ⟨hstep, ?_, rfl, fun _ => ⟨rfl, rfl⟩⟩
  unfold run_loop
  rw [hstep]

theorem unexpected_loop_end_witness :
    src_at [93, 91] (init_state []).src_iter = some 93 ∧
    (init_state []).loop_stack = [] ∧
    (step 3 [93, 91] (init_state []) = .fail .UnexpectedLoopEnd ∧
      run_loop 3 [93, 91] (0 + 1) (init_state []) = .failed .UnexpectedLoopEnd (init_state []) ∧
      count_brackets [93, 91] (0, 0) = (1, 1) ∧
      ∀ munmap_ok : Bool, (bfi_main 3 [93, 91] [] true munmap_ok (0 + 1)).outcome
          = .failed .UnexpectedLoopEnd (init_state []) ∧
        (bfi_main 3 [93, 91] [] true munmap_ok (0 + 1)).outcome.state.output = []) :=
  ⟨rfl, rfl, unexpected_loop_end 3 [93, 91] [] (init_state []) 0 rfl rfl⟩


/-! ## The data pointer stays inside the cell array -/

theorem byte_cases (c : Nat) :
    c = 43 ∨ c = 45 ∨ c = 62 ∨ c = 60 ∨ c = 46 ∨ c = 44 ∨ c = 91 ∨ c = 93 ∨
    (c ≠ 43 ∧ c ≠ 45 ∧ c ≠ 62 ∧ c ≠ 60 ∧ c ≠ 46 ∧ c ≠ 44 ∧ c ≠ 91 ∧ c ≠ 93) := by
  omega

theorem dispatch_next_data_ptr {N : Nat} {src : List Nat} {s s' : State} {c : Nat}
    (hN : 0 < N) (hp : s.data_ptr < N) (h : dispatch N src s c = .next s') :
    s'.data_ptr < N := by
  rcases byte_cases c with rfl | rfl | rfl | rfl | rfl | rfl | rfl | rfl | ⟨h1, h2, h3, h4, h5, h6, h7, h8⟩
  · rw [dispatch_incr] at h
    split_ifs at h
    cases h; exact hp
  · rw [dispatch_decr] at h
    split_ifs at h
    cases h; exact hp
  · rw [dispatch_right] at h
    split_ifs at h
    · cases h; exact hN
    · cases h; show s.data_ptr + 1 < N; omega
  · rw [dispatch_left] at h
    split_ifs at h
    · cases h; show N - 1 < N; omega
    · cases h; show s.data_ptr - 1 < N; omega
  · rw [dispatch_put] at h
    split_ifs at h
    cases h; exact hp
  · rw [dispatch_get] at h
    split_ifs at h
    all_goals try split at h
    all_goals cases h
    all_goals exact hp
  · rw [dispatch_open] at h
    split_ifs at h
    all_goals try split at h
    all_goals cases h
    all_goals exact hp
  · rw [dispatch_close] at h
    split at h
    · cases h
    · cases h; exact hp
  · rw [dispatch_other N src s c h1 h2 h3 h4 h5 h6 h7 h8] at h
    cases h; exact hp

theorem step_next_data_ptr {N : Nat} {src : List Nat} {s s' : State}
    (hN : 0 < N) (hp : s.data_ptr < N) (h : step N src s = .next s') :
    s'.data_ptr < N := by
  unfold step at h
  split_ifs at h
  split at h
  · cases h
  · exact dispatch_next_data_ptr hN hp h

theorem reachable_data_ptr_lt {N : Nat} {src input : List Nat} {s : State}
    (hN : 0 < N) (hr : Reachable N src input s) : s.data_ptr < N := by
  induction hr with
  | init => exact hN
  | step _ hstep ih => exact step_next_data_ptr hN ih hstep


/-! ## The forward scan -/

theorem skip_loop_first_zero (bs : List Nat) : ∀ (it : Int) (c m : Nat),
    1 ≤ c → c + bs.length < SIZE_MOD → m < bs.length →
    (∀ k, k < m → (c : Int) + ((bs.take (k + 1)).count 91 : Int)
        - ((bs.take (k + 1)).count 93 : Int) ≠ 0) →
    (c : Int) + ((bs.take (m + 1)).count 91 : Int) - ((bs.take (m + 1)).count 93 : Int) = 0 →
    skip_loop bs it c = some (it + m + 1) := by
  induction bs with
  | nil => intro it c m _ _ hm; simp at hm
  | cons b rest ih =>
    intro it c m hc hlen hm hpos hzero
    simp only [List.length_cons] at hlen hm
    -- the counter after the byte `b`
    obtain ⟨c', hc', hcI⟩ : ∃ c' : Nat,
        (if b = 91 then (c + 1) % SIZE_MOD
          else if b = 93 then (c + SIZE_MOD - 1) % SIZE_MOD else c) = c' ∧
        (c' : Int) = (c : Int) + (([b].count 91 : Nat) : Int) - (([b].count 93 : Nat) : Int) := by
      by_cases h1 : b = 91
      · subst h1
        refine ⟨c + 1, ?_, ?_⟩
        · rw [if_pos rfl]; exact Nat.mod_eq_of_lt (by omega)
        · simp
      · by_cases h2 : b = 93
        · subst h2
          refine ⟨c - 1, ?_, ?_⟩
          · rw [if_neg h1, if_pos rfl]
            have : c + SIZE_MOD - 1 = (c - 1) + SIZE_MOD := by omega
            rw [this, Nat.add_mod_right]
            exact Nat.mod_eq_of_lt (by omega)
          · simp; omega
        · refine ⟨c, ?_, ?_⟩
          · rw [if_neg h1, if_neg h2]
          · have e1 : ¬ (b = 91) := h1
            simp [List.count_cons, h1, h2]
    have hle : c' ≤ c + 1 := by
      have h91 : [b].count 91 ≤ 1 := by
        have := @List.count_le_length _ _ 91 [b]; simpa using this
      omega
    unfold skip_loop
    simp only [hc']
    have hsplit : ∀ k, (((b :: rest).take (k + 1)).count 91 : Int)
          = (([b].count 91 : Nat) : Int) + ((rest.take k).count 91 : Int) ∧
        (((b :: rest).take (k + 1)).count 93 : Int)
          = (([b].count 93 : Nat) : Int) + ((rest.take k).count 93 : Int) := by
      intro k
      simp only [List.take_succ_cons, List.count_cons, List.count_nil]
      constructor <;> push_cast <;> ring
    cases m with
    | zero =>
      have hz := hzero
      rw [(hsplit 0).1, (hsplit 0).2] at hz
      simp only [List.take_zero, List.count_nil, Nat.cast_zero, add_zero] at hz
      have hc0 : c' = 0 := by omega
      rw [if_neg (by simp [hc0])]
      simp
    | succ m' =>
      have hnz : c' ≠ 0 := by
        have h0 := hpos 0 (by omega)
        rw [(hsplit 0).1, (hsplit 0).2] at h0
        simp only [List.take_zero, List.count_nil, Nat.cast_zero, add_zero] at h0
        intro hc0
        apply h0
        omega
      rw [if_pos hnz]
      rw [ih (it + 1) c' m' (by omega) (by omega) (by omega)]
      · congr 1
        push_cast
        ring
      · intro k hk
        have hk' := hpos (k + 1) (by omega)
        rw [(hsplit (k + 1)).1, (hsplit (k + 1)).2] at hk'
        intro hcontra
        apply hk'
        omega
      · have hz := hzero
        rw [(hsplit (m' + 1)).1, (hsplit (m' + 1)).2] at hz
        omega


theorem src_at_natCast (src : List Nat) (i : Nat) : src_at src (i : Int) = src[i]? := by
  unfold src_at
  rw [if_neg (by omega)]
  simp

theorem skip_loop_matching {src : List Nat} {i j : Nat} (hlen : src.length < SIZE_MOD)
    (hm : Matching src i j) :
    skip_loop (src.drop (i + 1)) (i : Int) 1 = some (j : Int) := by
  obtain ⟨_, hj, hij, hzero, hnz⟩ := hm
  have hjlt : j < src.length := by
    by_contra hge
    rw [List.getElem?_eq_none (by omega)] at hj
    cases hj
  have h := skip_loop_first_zero (src.drop (i + 1)) (i : Int) 1 (j - i - 1) (le_refl 1)
    (by simp only [List.length_drop]; omega) (by simp only [List.length_drop]; omega)
    (by
      intro k hk
      have := hnz (i + 1 + k) (by omega) (by omega)
      unfold depth_after at this
      have e : i + 1 + k - i = k + 1 := by omega
      rw [e] at this
      simpa using this)
    (by
      unfold depth_after at hzero
      have e : j - i = j - i - 1 + 1 := by omega
      rw [e] at hzero
      simpa using hzero)
  rw [h]
  congr 1
  omega

/-- C1. In a reachable state (a tape of `N >= 1` cells, a source shorter than
2^64 bytes, whatever its bracket counts) whose cursor is on the `[` at offset
`i`, whose matching `]` is at offset `j`, while the current cell is 0, the pass
changes only the cursor, which becomes `j + 1`: the tape, the data pointer, the
loop stack, the input and the output are unchanged.  The run continues from
that state, and the positions dispatched are `i` and then those dispatched
from cursor `j + 1`: no byte of the loop body is dispatched. -/
theorem loop_skip (N : Nat) (src input : List Nat) (s : State) (i j : Nat)
    (hN : 0 < N) (hlen : src.length < SIZE_MOD) (hr : Reachable N src input s)
    (hi : s.src_iter = (i : Int)) (hm : Matching src i j) (hcell : s.mem_buf s.data_ptr = 0) :
    step N src s = .next { s with src_iter := (j : Int) + 1 } ∧
    (∀ fuel, run_loop N src (fuel + 1) s
        = run_loop N src fuel { s with src_iter := (j : Int) + 1 }) ∧
    (∀ fuel, dispatched N src (fuel + 1) s
        = (i : Int) :: dispatched N src fuel { s with src_iter := (j : Int) + 1 }) := by
  have hp := reachable_data_ptr_lt hN hr
  have hc : src_at src s.src_iter = some 91 := by
    rw [hi, src_at_natCast]; exact hm.1
  have hstep : step N src s = .next { s with src_iter := (j : Int) + 1 } := by
    rw [step_of_byte hc, dispatch_open, if_neg (by omega), if_neg (by omega),
      if_neg (by simp [hcell]), hi]
    simp only [Int.toNat_ofNat]
    rw [skip_loop_matching hlen hm]
  refine ⟨hstep, ?_, ?_⟩
  · intro fuel
    rw [run_loop, hstep]
  · intro fuel
    rw [dispatched, hstep, hi]

theorem loop_skip_witness :
    0 < 3 ∧ [91, 43, 91, 93, 93, 46].length < SIZE_MOD ∧
    Reachable 3 [91, 43, 91, 93, 93, 46] [] (init_state []) ∧
    (init_state []).src_iter = ((0 : Nat) : Int) ∧ Matching [91, 43, 91, 93, 93, 46] 0 4 ∧
    (init_state []).mem_buf (init_state []).data_ptr = 0 ∧
    (step 3 [91, 43, 91, 93, 93, 46] (init_state [])
        = .next { init_state [] with src_iter := ((4 : Nat) : Int) + 1 } ∧
      (∀ fuel, run_loop 3 [91, 43, 91, 93, 93, 46] (fuel + 1) (init_state [])
          = run_loop 3 [91, 43, 91, 93, 93, 46] fuel
              { init_state [] with src_iter := ((4 : Nat) : Int) + 1 }) ∧
      (∀ fuel, dispatched 3 [91, 43, 91, 93, 93, 46] (fuel + 1) (init_state [])
          = ((0 : Nat) : Int) :: dispatched 3 [91, 43, 91, 93, 93, 46] fuel
              { init_state [] with src_iter := ((4 : Nat) : Int) + 1 })) :=
  have hm : Matching [91, 43, 91, 93, 93, 46] 0 4 :=
    ⟨rfl, rfl, by decide, by decide, by decide⟩
  ⟨by decide, by decide, Reachable.init, rfl, hm, rfl,
    loop_skip 3 [91, 43, 91, 93, 93, 46] [] (init_state []) 0 4 (by decide) (by decide)
      Reachable.init rfl hm rfl⟩


/-! ## Runs with more passes, and the program `+[-]` -/

theorem run_loop_add (N : Nat) (src : List Nat) : ∀ (n k : Nat) (s : State),
    (∀ s', run_loop N src n s ≠ .out_of_fuel s') →
    run_loop N src (n + k) s = run_loop N src n s := by
  intro n
  induction n with
  | zero => intro k s h; exact absurd rfl (h s)
  | succ n ih =>
    intro k s h
    have e : n + 1 + k = (n + k) + 1 := by omega
    rw [e]
    unfold run_loop at h ⊢
    cases hstep : step N src s with
    | next s' =>
      rw [hstep] at h
      exact ih k s' h
    | halt => rfl
    | fail d => rfl
    | undefined => rfl

theorem dispatched_add (N : Nat) (src : List Nat) : ∀ (n k : Nat) (s : State),
    (∀ s', run_loop N src n s ≠ .out_of_fuel s') →
    dispatched N src (n + k) s = dispatched N src n s := by
  intro n
  induction n with
  | zero => intro k s h; exact absurd rfl (h s)
  | succ n ih =>
    intro k s h
    have e : n + 1 + k = (n + k) + 1 := by omega
    rw [e]
    unfold run_loop at h
    unfold dispatched
    cases hstep : step N src s with
    | next s' =>
      rw [hstep] at h
      simp only
      rw [ih k s' h]
    | halt => rfl
    | fail d => rfl
    | undefined => rfl

theorem run_loop_next {N : Nat} {src : List Nat} {s s' : State} (n : Nat)
    (h : step N src s = .next s') : run_loop N src (n + 1) s = run_loop N src n s' := by
  rw [run_loop, h]

theorem run_loop_halt {N : Nat} {src : List Nat} {s : State} (n : Nat)
    (h : step N src s = .halt) : run_loop N src (n + 1) s = .finished s := by
  rw [run_loop, h]

theorem dispatched_next {N : Nat} {src : List Nat} {s s' : State} (n : Nat)
    (h : step N src s = .next s') :
    dispatched N src (n + 1) s = s.src_iter :: dispatched N src n s' := by
  rw [dispatched, h]

theorem dispatched_halt {N : Nat} {src : List Nat} {s : State} (n : Nat)
    (h : step N src s = .halt) : dispatched N src (n + 1) s = [] := by
  rw [dispatched, h]

theorem loop_reentry_run (N : Nat) (input : List Nat) (hN : 0 < N) :
    run_loop N [43, 91, 45, 93] 6 (init_state input)
      = .finished { src_iter := 4, data_ptr := 0, mem_buf := fun _ => 0, loop_stack := [],
                    input := input, output := [] } ∧
    dispatched N [43, 91, 45, 93] 6 (init_state input) = [0, 1, 2, 3, 1] := by
  have h0 : (0 : Nat) ≠ N := by omega
  have hst : store (store (fun _ => 0) 0 1) 0 0 = fun _ => 0 := by
    funext q; simp [store]
  have e0 : step N [43, 91, 45, 93] (init_state input)
      = .next ⟨1, 0, store (fun _ => 0) 0 1, [], input, []⟩ := by
    simp [step, src_at, dispatch, init_state, h0]
  have e1 : step N [43, 91, 45, 93] ⟨1, 0, store (fun _ => 0) 0 1, [], input, []⟩
      = .next ⟨2, 0, store (fun _ => 0) 0 1, [1], input, []⟩ := by
    simp [step, src_at, dispatch, store, h0]
  have e2 : step N [43, 91, 45, 93] ⟨2, 0, store (fun _ => 0) 0 1, [1], input, []⟩
      = .next ⟨3, 0, fun _ => 0, [1], input, []⟩ := by
    have h : step N [43, 91, 45, 93] ⟨2, 0, store (fun _ => 0) 0 1, [1], input, []⟩
        = .next ⟨3, 0, store (store (fun _ => 0) 0 1) 0 0, [1], input, []⟩ := by
      simp [step, src_at, dispatch, store, h0]
    rw [h, hst]
  have e3 : step N [43, 91, 45, 93] ⟨3, 0, fun _ => 0, [1], input, []⟩
      = .next ⟨1, 0, fun _ => 0, [], input, []⟩ := by
    simp [step, src_at, dispatch]
  have e4 : step N [43, 91, 45, 93] ⟨1, 0, fun _ => 0, [], input, []⟩
      = .next ⟨4, 0, fun _ => 0, [], input, []⟩ := by
    simp [step, src_at, dispatch, skip_loop, SIZE_MOD, h0]
  have e5 : step N [43, 91, 45, 93] ⟨4, 0, fun _ => 0, [], input, []⟩ = .halt := by
    simp [step]
  constructor
  · rw [run_loop_next 5 e0, run_loop_next 4 e1, run_loop_next 3 e2, run_loop_next 2 e3,
      run_loop_next 1 e4, run_loop_halt 0 e5]
  · rw [dispatched_next 5 e0, dispatched_next 4 e1, dispatched_next 3 e2, dispatched_next 2 e3,
      dispatched_next 1 e4, dispatched_halt 0 e5]
    rfl

theorem bfi_main_of_finished {N : Nat} {src input : List Nat} {fuel : Nat} {s : State}
    (munmap_ok : Bool) (hlen : src.length < SIZE_MOD) (heq : src.count 91 = src.count 93)
    (h : run_loop N src fuel (init_state input) = .finished s) :
    bfi_main N src input true munmap_ok fuel
      = { outcome := .finished s, status := some (try_munmap munmap_ok) } := by
  rw [bfi_main_balanced N src input true munmap_ok fuel hlen heq, h]
  simp

/-- C2. On a zeroed tape of any capacity `N >= 1`, with any input, the run of
`+[-]` (given at least the six passes it needs) ends by the cursor reaching
the end of the source, in the state with cursor 4, data pointer 0, every cell
0, the loop stack empty, the input untouched and the output empty.  The
positions dispatched are 0, 1, 2, 3, 1: the `-` at offset 2 is executed exactly
once. -/
theorem loop_reentry (N : Nat) (input : List Nat) (munmap_ok : Bool) (fuel : Nat)
    (hN : 0 < N) (hfuel : 6 ≤ fuel) :
    (bfi_main N [43, 91, 45, 93] input true munmap_ok fuel).outcome
      = .finished { src_iter := 4, data_ptr := 0, mem_buf := fun _ => 0, loop_stack := [],
                    input := input, output := [] } ∧
    (bfi_main N [43, 91, 45, 93] input true munmap_ok fuel).status
      = some (try_munmap munmap_ok) ∧
    dispatched N [43, 91, 45, 93] fuel (init_state input) = [0, 1, 2, 3, 1] ∧
    (dispatched N [43, 91, 45, 93] fuel (init_state input)).count 2 = 1 := by
  obtain ⟨k, rfl⟩ : ∃ k, fuel = 6 + k := ⟨fuel - 6, by omega⟩
  obtain ⟨hrun, hdis⟩ := loop_reentry_run N input hN
  have hnf : ∀ s', run_loop N [43, 91, 45, 93] 6 (init_state input) ≠ .out_of_fuel s' := by
    intro s' h
    rw [hrun] at h
    cases h
  have hrun' := (run_loop_add N [43, 91, 45, 93] 6 k (init_state input) hnf).trans hrun
  have hdis' := (dispatched_add N [43, 91, 45, 93] 6 k (init_state input) hnf).trans hdis
  rw [bfi_main_of_finished munmap_ok (by decide) (by decide) hrun', hdis']
  exact ⟨rfl, rfl, rfl, by decide⟩

theorem loop_reentry_witness :
    0 < MEM_BUF_SIZE ∧ 6 ≤ 6 ∧
    ((bfi_main MEM_BUF_SIZE [43, 91, 45, 93] [] true true 6).outcome
        = .finished { src_iter := 4, data_ptr := 0, mem_buf := fun _ => 0, loop_stack := [],
                      input := [], output := [] } ∧
      (bfi_main MEM_BUF_SIZE [43, 91, 45, 93] [] true true 6).status
        = some (try_munmap true) ∧
      dispatched MEM_BUF_SIZE [43, 91, 45, 93] 6 (init_state []) = [0, 1, 2, 3, 1] ∧
      (dispatched MEM_BUF_SIZE [43, 91, 45, 93] 6 (init_state [])).count 2 = 1) :=
  ⟨by decide, by decide, loop_reentry MEM_BUF_SIZE [] true 6 (by decide) (by decide)⟩


/-! ## Input, output and pointer moves -/

theorem echo_run (N : Nat) (b : Nat) (rest : List Nat) (hN : 0 < N) :
    run_loop N [44, 46] 3 (init_state (b :: rest))
      = .finished { src_iter := 2, data_ptr := 0, mem_buf := store (fun _ => 0) 0 (b % 256),
                    loop_stack := [], input := rest, output := [b % 256] } := by
  have h0 : (0 : Nat) ≠ N := by omega
  have e0 : step N [44, 46] (init_state (b :: rest))
      = .next ⟨1, 0, store (fun _ => 0) 0 (b % 256), [], rest, []⟩ := by
    simp [step, src_at, dispatch, init_state, h0]
  have e1 : step N [44, 46] ⟨1, 0, store (fun _ => 0) 0 (b % 256), [], rest, []⟩
      = .next ⟨2, 0, store (fun _ => 0) 0 (b % 256), [], rest, [b % 256]⟩ := by
    simp [step, src_at, dispatch, store, h0]
  have e2 : step N [44, 46] ⟨2, 0, store (fun _ => 0) 0 (b % 256), [], rest, [b % 256]⟩
      = .halt := by
    simp [step]
  rw [run_loop_next 2 e0, run_loop_next 1 e1, run_loop_halt 0 e2]

/-- C8. For every byte `b` (0 to 255), every tape capacity `N >= 1` and every
continuation `rest` of the input stream, the run of `,.` on a zeroed tape with
input `b :: rest` (given at least the three passes it needs) ends by the
cursor reaching the end of the source; exactly the byte `b` has been consumed
(the input left is `rest`) and the output is exactly the one byte `b`. -/
theorem echo (N : Nat) (b : Nat) (rest : List Nat) (munmap_ok : Bool) (fuel : Nat)
    (hN : 0 < N) (hb : b < 256) (hfuel : 3 ≤ fuel) :
    (bfi_main N [44, 46] (b :: rest) true munmap_ok fuel).outcome
      = .finished { src_iter := 2, data_ptr := 0, mem_buf := store (fun _ => 0) 0 b,
                    loop_stack := [], input := rest, output := [b] } ∧
    (bfi_main N [44, 46] (b :: rest) true munmap_ok fuel).outcome.completed = true ∧
    (bfi_main N [44, 46] (b :: rest) true munmap_ok fuel).outcome.state.output = [b] ∧
    (bfi_main N [44, 46] (b :: rest) true munmap_ok fuel).outcome.state.input = rest := by
  obtain ⟨k, rfl⟩ : ∃ k, fuel = 3 + k := ⟨fuel - 3, by omega⟩
  have hrun := echo_run N b rest hN
  rw [Nat.mod_eq_of_lt hb] at hrun
  have hnf : ∀ s', run_loop N [44, 46] 3 (init_state (b :: rest)) ≠ .out_of_fuel s' := by
    intro s' h
    rw [hrun] at h
    cases h
  have hrun' := (run_loop_add N [44, 46] 3 k (init_state (b :: rest)) hnf).trans hrun
  rw [bfi_main_of_finished munmap_ok (by decide) (by decide) hrun']
  exact ⟨rfl, rfl, rfl, rfl⟩

theorem echo_witness :
    0 < MEM_BUF_SIZE ∧ 65 < 256 ∧ 3 ≤ 3 ∧
    ((bfi_main MEM_BUF_SIZE [44, 46] (65 :: [66]) true true 3).outcome
        = .finished { src_iter := 2, data_ptr := 0, mem_buf := store (fun _ => 0) 0 65,
                      loop_stack := [], input := [66], output := [65] } ∧
      (bfi_main MEM_BUF_SIZE [44, 46] (65 :: [66]) true true 3).outcome.completed = true ∧
      (bfi_main MEM_BUF_SIZE [44, 46] (65 :: [66]) true true 3).outcome.state.output = [65] ∧
      (bfi_main MEM_BUF_SIZE [44, 46] (65 :: [66]) true true 3).outcome.state.input = [66]) :=
  ⟨by decide, by decide, by decide,
    echo MEM_BUF_SIZE 65 [66] true 3 (by decide) (by decide) (by decide)⟩

/-- C9. In a reachable state (tape capacity `N >= 1`) whose cursor is on a
`,`: when the input is exhausted the pass changes only the cursor, which
advances by one (every cell, the data pointer, the loop stack and the output
are unchanged); when the input is `b :: rest` the pass stores `b mod 256`,
which is `b` for a byte, in the current cell, changes no other cell, leaves
`rest` as the input and advances the cursor by one. -/
theorem input_instruction (N : Nat) (src input : List Nat) (s : State)
    (hN : 0 < N) (hr : Reachable N src input s) (hc : src_at src s.src_iter = some 44) :
    (s.input = [] → step N src s = .next { s with src_iter := s.src_iter + 1 }) ∧
    (∀ b rest, s.input = b :: rest →
      step N src s = .next { s with mem_buf := store s.mem_buf s.data_ptr (b % 256),
                                    input := rest, src_iter := s.src_iter + 1 } ∧
      store s.mem_buf s.data_ptr (b % 256) s.data_ptr = b % 256 ∧
      (b < 256 → store s.mem_buf s.data_ptr (b % 256) s.data_ptr = b) ∧
      ∀ q, q ≠ s.data_ptr → store s.mem_buf s.data_ptr (b % 256) q = s.mem_buf q) := by
  have hp := reachable_data_ptr_lt hN hr
  have hne : s.data_ptr ≠ N := by omega
  have hnlt : ¬ N < s.data_ptr := by omega
  constructor
  · intro hin
    rw [step_of_byte hc, dispatch_get, if_neg hne, hin]
  · intro b rest hin
    refine ⟨?_, ?_, ?_, ?_⟩
    · rw [step_of_byte hc, dispatch_get, if_neg hne, hin]
      simp only [if_neg hnlt]
    · simp [store]
    · intro hb
      simp [store, Nat.mod_eq_of_lt hb]
    · intro q hq
      simp [store, hq]

theorem input_instruction_witness :
    (0 < 3 ∧ Reachable 3 [44] [65] (init_state [65]) ∧
      src_at [44] (init_state [65]).src_iter = some 44 ∧
      (init_state [65]).input = [65] ∧
      step 3 [44] (init_state [65])
        = .next { init_state [65] with
                    mem_buf := store (init_state [65]).mem_buf (init_state [65]).data_ptr (65 % 256),
                    input := [], src_iter := (init_state [65]).src_iter + 1 }) ∧
    (Reachable 3 [44] [] (init_state []) ∧ (init_state []).input = [] ∧
      step 3 [44] (init_state [])
        = .next { init_state [] with src_iter := (init_state []).src_iter + 1 }) :=
  ⟨⟨by decide, Reachable.init, rfl, rfl,
      ((input_instruction 3 [44] [65] (init_state [65]) (by decide) Reachable.init rfl).2
        65 [] rfl).1⟩,
    ⟨Reachable.init, rfl,
      (input_instruction 3 [44] [] (init_state []) (by decide) Reachable.init rfl).1 rfl⟩⟩

/-- C10. For every tape capacity `N >= 1` and every state: a pass on `>` moves
the data pointer from offset `N - 1` to offset 0 and from any other offset to
the next one; a pass on `<` moves it from offset 0 to offset `N - 1` and from
any other offset to the previous one.  Both passes succeed, change nothing
else but the cursor (no cell in particular) and keep a data pointer that was
below `N` below `N`. -/
theorem pointer_wraparound (N : Nat) (src : List Nat) (s : State) (hN : 0 < N) :
    (src_at src s.src_iter = some 62 →
      step N src s = .next { s with data_ptr := if s.data_ptr = N - 1 then 0 else s.data_ptr + 1,
                                    src_iter := s.src_iter + 1 } ∧
      (s.data_ptr < N → (if s.data_ptr = N - 1 then 0 else s.data_ptr + 1) < N)) ∧
    (src_at src s.src_iter = some 60 →
      step N src s = .next { s with data_ptr := if s.data_ptr = 0 then N - 1 else s.data_ptr - 1,
                                    src_iter := s.src_iter + 1 } ∧
      (s.data_ptr < N → (if s.data_ptr = 0 then N - 1 else s.data_ptr - 1) < N)) := by
  constructor
  · intro hc
    constructor
    · rw [step_of_byte hc, dispatch_right]
      split_ifs <;> rfl
    · intro hp
      split_ifs <;> omega
  · intro hc
    constructor
    · rw [step_of_byte hc, dispatch_left]
      split_ifs <;> rfl
    · intro hp
      split_ifs <;> omega

theorem pointer_wraparound_witness :
    0 < 3 ∧
    (src_at [62, 60] (0 : Int) = some 62 ∧
      step 3 [62, 60] ⟨0, 2, fun _ => 0, [], [], []⟩
        = .next ⟨0 + 1, if 2 = 3 - 1 then 0 else 2 + 1, fun _ => 0, [], [], []⟩) ∧
    (src_at [62, 60] (1 : Int) = some 60 ∧
      step 3 [62, 60] ⟨1, 0, fun _ => 0, [], [], []⟩
        = .next ⟨1 + 1, if 0 = 0 then 3 - 1 else 0 - 1, fun _ => 0, [], [], []⟩) :=
  ⟨by decide,
    ⟨rfl, ((pointer_wraparound 3 [62, 60] ⟨0, 2, fun _ => 0, [], [], []⟩ (by decide)).1 rfl).1⟩,
    ⟨rfl, ((pointer_wraparound 3 [62, 60] ⟨1, 0, fun _ => 0, [], [], []⟩ (by decide)).2 rfl).1⟩⟩


/-! ## Sources without `,` and the Hello World program -/

theorem dispatch_set_input (N : Nat) (src : List Nat) (s : State) (c : Nat) (i : List Nat)
    (hc : c ≠ 44) :
    dispatch N src (s.set_input i) c = (dispatch N src s c).set_input i := by
  rcases byte_cases c with rfl | rfl | rfl | rfl | rfl | rfl | rfl | rfl | ⟨h1, h2, h3, h4, h5, h6, h7, h8⟩
  · rw [dispatch_incr, dispatch_incr]
    simp only [State.set_input]
    split_ifs <;> rfl
  · rw [dispatch_decr, dispatch_decr]
    simp only [State.set_input]
    split_ifs <;> rfl
  · rw [dispatch_right, dispatch_right]
    simp only [State.set_input]
    split_ifs <;> rfl
  · rw [dispatch_left, dispatch_left]
    simp only [State.set_input]
    split_ifs <;> rfl
  · rw [dispatch_put, dispatch_put]
    simp only [State.set_input]
    split_ifs <;> rfl
  · exact absurd rfl hc
  · rw [dispatch_open, dispatch_open]
    simp only [State.set_input]
    split_ifs
    · rfl
    · rfl
    · rfl
    · cases skip_loop (List.drop (s.src_iter.toNat + 1) src) s.src_iter 1 <;> rfl
  · rw [dispatch_close, dispatch_close]
    simp only [State.set_input]
    cases s.loop_stack <;> rfl
  · rw [dispatch_other N src _ c h1 h2 h3 h4 h5 h6 h7 h8,
      dispatch_other N src _ c h1 h2 h3 h4 h5 h6 h7 h8]
    rfl

theorem src_at_mem {src : List Nat} {i : Int} {c : Nat} (h : src_at src i = some c) :
    c ∈ src := by
  obtain ⟨_, _, hget⟩ := src_at_some h
  exact List.getElem?_mem hget

theorem step_set_input (N : Nat) (src : List Nat) (s : State) (i : List Nat)
    (h44 : 44 ∉ src) :
    step N src (s.set_input i) = (step N src s).set_input i := by
  unfold step
  have e : (s.set_input i).src_iter = s.src_iter := rfl
  rw [e]
  split_ifs
  · rfl
  · cases hc : src_at src s.src_iter with
    | none => rfl
    | some c =>
      have hne : c ≠ 44 := by
        intro h; subst h; exact h44 (src_at_mem hc)
      exact dispatch_set_input N src s c i hne

theorem run_loop_set_input (N : Nat) (src : List Nat) (i : List Nat) (h44 : 44 ∉ src) :
    ∀ (n : Nat) (s : State),
      run_loop N src n (s.set_input i) = (run_loop N src n s).set_input i := by
  intro n
  induction n with
  | zero => intro s; rfl
  | succ n ih =>
    intro s
    unfold run_loop
    rw [step_set_input N src s i h44]
    cases step N src s with
    | next s' => exact ih s'
    | halt => rfl
    | fail d => rfl
    | undefined => rfl

theorem set_input_completed (o : Outcome) (i : List Nat) :
    (o.set_input i).completed = o.completed := by
  cases o <;> rfl

theorem set_input_output (o : Outcome) (i : List Nat) :
    (o.set_input i).state.output = o.state.output := by
  cases o <;> rfl

theorem set_input_input (o : Outcome) (i : List Nat) :
    (o.set_input i).state.input = i := by
  cases o <;> rfl

set_option maxRecDepth 100000 in
theorem hello_world_closed_run :
    (run_loop MEM_BUF_SIZE hello_world 987 (init_state [])).completed = true ∧
    (run_loop MEM_BUF_SIZE hello_world 987 (init_state [])).state.output
      = [72, 101, 108, 108, 111, 32, 87, 111, 114, 108, 100, 33, 10] := by
  decide!

theorem completed_iff (o : Outcome) : o.completed = true ↔ ∃ s, o = .finished s := by
  cases o with
  | finished s => exact ⟨fun _ => ⟨s, rfl⟩, fun _ => rfl⟩
  | failed d s => exact ⟨fun h => (by cases h), fun ⟨_, h⟩ => (by cases h)⟩
  | undefined s => exact ⟨fun h => (by cases h), fun ⟨_, h⟩ => (by cases h)⟩
  | out_of_fuel s => exact ⟨fun h => (by cases h), fun ⟨_, h⟩ => (by cases h)⟩

/-- C7. On a tape of 30720 cells, with any input, the run of the canonical
"Hello World!" source (given at least the 987 passes it needs) ends by the
cursor reaching the end of the source, and the output is exactly the 13 bytes
72, 101, 108, 108, 111, 32, 87, 111, 114, 108, 100, 33, 10 of "Hello World!"
and a newline; no input byte is consumed. -/
theorem hello_world_output (input : List Nat) (munmap_ok : Bool) (fuel : Nat)
    (hfuel : 987 ≤ fuel) :
    (bfi_main MEM_BUF_SIZE hello_world input true munmap_ok fuel).outcome.completed = true ∧
    (bfi_main MEM_BUF_SIZE hello_world input true munmap_ok fuel).outcome.state.output
      = [72, 101, 108, 108, 111, 32, 87, 111, 114, 108, 100, 33, 10] ∧
    (bfi_main MEM_BUF_SIZE hello_world input true munmap_ok fuel).outcome.state.input
      = input ∧
    (bfi_main MEM_BUF_SIZE hello_world input true munmap_ok fuel).status
      = some (try_munmap munmap_ok) := by
  obtain ⟨k, rfl⟩ : ∃ k, fuel = 987 + k := ⟨fuel - 987, by omega⟩
  obtain ⟨hdone, hout⟩ := hello_world_closed_run
  have h44 : 44 ∉ hello_world := by decide
  have hinit : init_state input = (init_state []).set_input input := rfl
  have hrun : run_loop MEM_BUF_SIZE hello_world 987 (init_state input)
      = (run_loop MEM_BUF_SIZE hello_world 987 (init_state [])).set_input input := by
    rw [hinit, run_loop_set_input MEM_BUF_SIZE hello_world input h44]
  have hdone' : (run_loop MEM_BUF_SIZE hello_world 987 (init_state input)).completed = true := by
    rw [hrun, set_input_completed]; exact hdone
  have hnf : ∀ s', run_loop MEM_BUF_SIZE hello_world 987 (init_state input)
      ≠ .out_of_fuel s' := by
    intro s' h
    rw [h] at hdone'
    cases hdone'
  have hrun' := run_loop_add MEM_BUF_SIZE hello_world 987 k (init_state input) hnf
  obtain ⟨s, hs⟩ := (completed_iff _).mp hdone'
  have hfin : run_loop MEM_BUF_SIZE hello_world (987 + k) (init_state input) = .finished s :=
    hrun'.trans hs
  have hso : s.output = [72, 101, 108, 108, 111, 32, 87, 111, 114, 108, 100, 33, 10] := by
    have := set_input_output (run_loop MEM_BUF_SIZE hello_world 987 (init_state [])) input
    rw [← hrun, hs, hout] at this
    exact this
  have hsi : s.input = input := by
    have := set_input_input (run_loop MEM_BUF_SIZE hello_world 987 (init_state [])) input
    rw [← hrun, hs] at this
    exact this
  rw [bfi_main_of_finished munmap_ok (by decide) (by decide) hfin]
  exact ⟨rfl, hso, hsi, rfl⟩

theorem hello_world_output_witness :
    987 ≤ 987 ∧
    (bfi_main MEM_BUF_SIZE hello_world [1, 2] true true 987).outcome.completed = true ∧
    (bfi_main MEM_BUF_SIZE hello_world [1, 2] true true 987).outcome.state.output
      = [72, 101, 108, 108, 111, 32, 87, 111, 114, 108, 100, 33, 10] ∧
    (bfi_main MEM_BUF_SIZE hello_world [1, 2] true true 987).outcome.state.input = [1, 2] ∧
    (bfi_main MEM_BUF_SIZE hello_world [1, 2] true true 987).status = some (try_munmap true) :=
  ⟨by decide, hello_world_output [1, 2] true 987 (by decide)⟩


/-! ## Cell values, the pointer invariant and the address guard -/

theorem step_incr {N : Nat} {src : List Nat} {s : State}
    (hc : src_at src s.src_iter = some 43) (hp : s.data_ptr < N) :
    step N src s = .next { s with mem_buf := store s.mem_buf s.data_ptr
                                    ((s.mem_buf s.data_ptr + 1) % 256),
                                  src_iter := s.src_iter + 1 } := by
  rw [step_of_byte hc, dispatch_incr, if_neg (by omega), if_neg (by omega)]

theorem step_decr {N : Nat} {src : List Nat} {s : State}
    (hc : src_at src s.src_iter = some 45) (hp : s.data_ptr < N) :
    step N src s = .next { s with mem_buf := store s.mem_buf s.data_ptr
                                    ((s.mem_buf s.data_ptr + 256 - 1) % 256),
                                  src_iter := s.src_iter + 1 } := by
  rw [step_of_byte hc, dispatch_decr, if_neg (by omega), if_neg (by omega)]

theorem store_same (m : Nat → Nat) (p v : Nat) : store m p v p = v := by
  simp [store]

theorem store_other (m : Nat → Nat) (p v q : Nat) (h : q ≠ p) : store m p v q = m q := by
  simp [store, h]

/-- C11. In a reachable state (tape capacity `N >= 1`) a pass on `+` succeeds
and replaces the current cell `v` by `(v + 1) mod 256`, a pass on `-` succeeds
and replaces it by `(v + 256 - 1) mod 256`, which for a byte `v` is
`(v - 1) mod 256`; no other cell changes.  In particular 255 increments to 0
and 0 decrements to 255. -/
theorem cell_wraparound (N : Nat) (src input : List Nat) (s : State)
    (hN : 0 < N) (hr : Reachable N src input s) :
    (src_at src s.src_iter = some 43 →
      step N src s = .next { s with mem_buf := store s.mem_buf s.data_ptr
                                      ((s.mem_buf s.data_ptr + 1) % 256),
                                    src_iter := s.src_iter + 1 } ∧
      store s.mem_buf s.data_ptr ((s.mem_buf s.data_ptr + 1) % 256) s.data_ptr
        = (s.mem_buf s.data_ptr + 1) % 256 ∧
      (s.mem_buf s.data_ptr = 255 →
        store s.mem_buf s.data_ptr ((s.mem_buf s.data_ptr + 1) % 256) s.data_ptr = 0)) ∧
    (src_at src s.src_iter = some 45 →
      step N src s = .next { s with mem_buf := store s.mem_buf s.data_ptr
                                      ((s.mem_buf s.data_ptr + 256 - 1) % 256),
                                    src_iter := s.src_iter + 1 } ∧
      store s.mem_buf s.data_ptr ((s.mem_buf s.data_ptr + 256 - 1) % 256) s.data_ptr
        = (s.mem_buf s.data_ptr + 256 - 1) % 256 ∧
      (s.mem_buf s.data_ptr < 256 →
        ((store s.mem_buf s.data_ptr ((s.mem_buf s.data_ptr + 256 - 1) % 256) s.data_ptr : Nat)
            : Int) = ((s.mem_buf s.data_ptr : Int) - 1) % 256) ∧
      (s.mem_buf s.data_ptr = 0 →
        store s.mem_buf s.data_ptr ((s.mem_buf s.data_ptr + 256 - 1) % 256) s.data_ptr = 255)) ∧
    (∀ v q, q ≠ s.data_ptr → store s.mem_buf s.data_ptr v q = s.mem_buf q) := by
  have hp := reachable_data_ptr_lt hN hr
  refine ⟨fun hc => ⟨step_incr hc hp, store_same _ _ _, ?_⟩,
    fun hc => ⟨step_decr hc hp, store_same _ _ _, ?_, ?_⟩,
    fun v q hq => store_other _ _ _ _ hq⟩
  · intro hv
    rw [store_same, hv]
  · intro hv
    rw [store_same]
    omega
  · intro hv
    rw [store_same, hv]

theorem cell_wraparound_witness :
    (0 < 3 ∧ Reachable 3 [45, 43] [] (init_state []) ∧
      src_at [45, 43] (init_state []).src_iter = some 45 ∧
      (init_state []).mem_buf (init_state []).data_ptr = 0 ∧
      store (init_state []).mem_buf (init_state []).data_ptr
        (((init_state []).mem_buf (init_state []).data_ptr + 256 - 1) % 256)
        (init_state []).data_ptr = 255) ∧
    (Reachable 3 [45, 43] [] ⟨1, 0, store (fun _ => 0) 0 255, [], [], []⟩ ∧
      src_at [45, 43] (1 : Int) = some 43 ∧
      store (fun _ => 0) 0 255 0 = 255 ∧
      store (store (fun _ => 0) 0 255) 0 ((store (fun _ => 0) 0 255 0 + 1) % 256) 0 = 0) :=
  have h1 : Reachable 3 [45, 43] [] ⟨1, 0, store (fun _ => 0) 0 255, [], [], []⟩ :=
    Reachable.step Reachable.init rfl
  ⟨⟨by decide, Reachable.init, rfl, rfl,
      ((cell_wraparound 3 [45, 43] [] (init_state []) (by decide) Reachable.init).2.1 rfl).2.2.2
        rfl⟩,
    ⟨h1, rfl, rfl,
      ((cell_wraparound 3 [45, 43] [] ⟨1, 0, store (fun _ => 0) 0 255, [], [], []⟩ (by decide)
        h1).1 rfl).2.2 rfl⟩⟩

/-- C12. For every source, input and tape capacity `N >= 1`, the data pointer
is below `N` in the initial state and in every state reachable from it, and a
pass from a reachable state that completes leaves it below `N`. -/
theorem pointer_invariant (N : Nat) (src input : List Nat) (s : State)
    (hN : 0 < N) (hr : Reachable N src input s) :
    (init_state input).data_ptr < N ∧ s.data_ptr < N ∧
    ∀ s', step N src s = .next s' → s'.data_ptr < N := by
  have hp := reachable_data_ptr_lt hN hr
  exact ⟨hN, hp, fun s' h => step_next_data_ptr hN hp h⟩

theorem pointer_invariant_witness :
    0 < 2 ∧ Reachable 2 [62, 62, 60] [] ⟨2, 0, fun _ => 0, [], [], []⟩ ∧
    ((init_state []).data_ptr < 2 ∧ (⟨2, 0, fun _ => 0, [], [], []⟩ : State).data_ptr < 2 ∧
      ∀ s', step 2 [62, 62, 60] ⟨2, 0, fun _ => 0, [], [], []⟩ = .next s' → s'.data_ptr < 2) :=
  have h1 : Reachable 2 [62, 62, 60] [] ⟨1, 1, fun _ => 0, [], [], []⟩ :=
    Reachable.step Reachable.init rfl
  have h2 : Reachable 2 [62, 62, 60] [] ⟨2, 0, fun _ => 0, [], [], []⟩ :=
    Reachable.step h1 rfl
  ⟨by decide, h2, pointer_invariant 2 [62, 62, 60] [] _ (by decide) h2⟩


theorem run_loop_reachable {N : Nat} {src input : List Nat} :
    ∀ (n : Nat) (s : State), Reachable N src input s →
      Reachable N src input (run_loop N src n s).state := by
  intro n
  induction n with
  | zero => intro s hr; exact hr
  | succ n ih =>
    intro s hr
    unfold run_loop
    cases hstep : step N src s with
    | next s' => exact ih s' (Reachable.step hr hstep)
    | halt => exact hr
    | fail d => exact hr
    | undefined => exact hr

theorem run_loop_failed_step {N : Nat} {src : List Nat} :
    ∀ (n : Nat) (s s' : State) (d : Fault), run_loop N src n s = .failed d s' →
      step N src s' = .fail d := by
  intro n
  induction n with
  | zero => intro s s' d h; cases h
  | succ n ih =>
    intro s s' d h
    unfold run_loop at h
    cases hstep : step N src s with
    | next s1 => rw [hstep] at h; exact ih s1 s' d h
    | halt => rw [hstep] at h; cases h
    | fail e => rw [hstep] at h; cases h; exact hstep
    | undefined => rw [hstep] at h; cases h

theorem run_loop_finished_step {N : Nat} {src : List Nat} :
    ∀ (n : Nat) (s s' : State), run_loop N src n s = .finished s' →
      step N src s' = .halt := by
  intro n
  induction n with
  | zero => intro s s' h; cases h
  | succ n ih =>
    intro s s' h
    unfold run_loop at h
    cases hstep : step N src s with
    | next s1 => rw [hstep] at h; exact ih s1 s' h
    | halt => rw [hstep] at h; cases h; exact hstep
    | fail e => rw [hstep] at h; cases h
    | undefined => rw [hstep] at h; cases h

theorem run_loop_undefined_step {N : Nat} {src : List Nat} :
    ∀ (n : Nat) (s s' : State), run_loop N src n s = .undefined s' →
      step N src s' = .undefined := by
  intro n
  induction n with
  | zero => intro s s' h; cases h
  | succ n ih =>
    intro s s' h
    unfold run_loop at h
    cases hstep : step N src s with
    | next s1 => rw [hstep] at h; exact ih s1 s' h
    | halt => rw [hstep] at h; cases h
    | fail e => rw [hstep] at h; cases h
    | undefined => rw [hstep] at h; cases h; exact hstep

theorem dispatch_fail_invalid {N : Nat} {src : List Nat} {s : State} {c : Nat}
    {op : Operation} (h : dispatch N src s c = .fail (.InvalidAddress op)) :
    s.data_ptr = N := by
  rcases byte_cases c with rfl | rfl | rfl | rfl | rfl | rfl | rfl | rfl | ⟨h1, h2, h3, h4, h5, h6, h7, h8⟩
  · rw [dispatch_incr] at h
    split_ifs at h with h0
    exact h0
  · rw [dispatch_decr] at h
    split_ifs at h with h0
    exact h0
  · rw [dispatch_right] at h
    split_ifs at h
  · rw [dispatch_left] at h
    split_ifs at h
  · rw [dispatch_put] at h
    split_ifs at h with h0
    exact h0
  · rw [dispatch_get] at h
    by_cases h0 : s.data_ptr = N
    · exact h0
    · rw [if_neg h0] at h
      split at h
      · cases h
      · split_ifs at h
  · rw [dispatch_open] at h
    by_cases h0 : s.data_ptr = N
    · exact h0
    · rw [if_neg h0] at h
      split_ifs at h
      split at h <;> cases h
  · rw [dispatch_close] at h
    split at h <;> cases h
  · rw [dispatch_other N src s c h1 h2 h3 h4 h5 h6 h7 h8] at h
    cases h

theorem step_fail_invalid {N : Nat} {src : List Nat} {s : State} {op : Operation}
    (h : step N src s = .fail (.InvalidAddress op)) : s.data_ptr = N := by
  unfold step at h
  split_ifs at h
  split at h
  · cases h
  · exact dispatch_fail_invalid h

/-- C13. For every tape capacity `N >= 1`, every source and every input: in
every reachable state the data pointer differs from `mem_buf_end` (offset
`N`), so no pass from a reachable state fails with `InvalidAddress`, and no
run of `main` ends with `InvalidAddress`. -/
theorem dead_bounds_guard (N : Nat) (src input : List Nat) (hN : 0 < N) :
    (∀ s, Reachable N src input s → s.data_ptr ≠ N) ∧
    (∀ s op, Reachable N src input s → step N src s ≠ .fail (.InvalidAddress op)) ∧
    (∀ (alloc_ok munmap_ok : Bool) (fuel : Nat) (op : Operation),
      (bfi_main N src input alloc_ok munmap_ok fuel).outcome.fault
        ≠ some (.InvalidAddress op)) := by
  have h1 : ∀ s, Reachable N src input s → s.data_ptr ≠ N := by
    intro s hr
    have := reachable_data_ptr_lt hN hr
    omega
  have h2 : ∀ s op, Reachable N src input s → step N src s ≠ .fail (.InvalidAddress op) :=
    fun s op hr h => h1 s hr (step_fail_invalid h)
  refine ⟨h1, h2, ?_⟩
  intro alloc_ok munmap_ok fuel op
  unfold bfi_main
  simp only []
  split_ifs
  · simp [Outcome.fault]
  · simp [Outcome.fault]
  · cases hrun : run_loop N src fuel (init_state input) with
    | finished s => simp [Outcome.fault]
    | failed d s =>
      simp only [Outcome.fault, ne_eq, Option.some.injEq]
      intro hd
      subst hd
      have hreach := @run_loop_reachable N src input fuel (init_state input) Reachable.init
      rw [hrun] at hreach
      exact h2 s op hreach (run_loop_failed_step fuel _ s _ hrun)
    | undefined s => simp [Outcome.fault]
    | out_of_fuel s => simp [Outcome.fault]

theorem dead_bounds_guard_witness :
    0 < MEM_BUF_SIZE ∧
    ((∀ s, Reachable MEM_BUF_SIZE [60, 43] [] s → s.data_ptr ≠ MEM_BUF_SIZE) ∧
      (∀ s op, Reachable MEM_BUF_SIZE [60, 43] [] s →
        step MEM_BUF_SIZE [60, 43] s ≠ .fail (.InvalidAddress op)) ∧
      (∀ (alloc_ok munmap_ok : Bool) (fuel : Nat) (op : Operation),
        (bfi_main MEM_BUF_SIZE [60, 43] [] alloc_ok munmap_ok fuel).outcome.fault
          ≠ some (.InvalidAddress op))) :=
  ⟨by decide, dead_bounds_guard MEM_BUF_SIZE [60, 43] [] (by decide)⟩


/-! ## The cursor and loop stack invariant -/

theorem balance_nil : balance [] = 0 := by simp [balance]

theorem balance_append (a b : List Nat) : balance (a ++ b) = balance a + balance b := by
  unfold balance
  simp only [List.count_append]
  push_cast
  ring

theorem balance_cons (c : Nat) (bs : List Nat) :
    balance (c :: bs) = balance [c] + balance bs := by
  have := balance_append [c] bs
  simpa using this

theorem balance_open : balance [91] = 1 := by simp [balance]

theorem balance_close : balance [93] = -1 := by simp [balance]

theorem balance_plain {c : Nat} (h1 : c ≠ 91) (h2 : c ≠ 93) : balance [c] = 0 := by
  simp [balance, List.count_cons, h1, h2]

theorem balance_single_le (c : Nat) : balance [c] ≤ 1 ∧ -1 ≤ balance [c] := by
  by_cases h1 : c = 91
  · subst h1; rw [balance_open]; omega
  · by_cases h2 : c = 93
    · subst h2; rw [balance_close]; omega
    · rw [balance_plain h1 h2]; omega

theorem take_succ_eq {bs : List Nat} {i : Nat} {c : Nat} (h : bs[i]? = some c) :
    bs.take (i + 1) = bs.take i ++ [c] := by
  rw [List.take_succ, h]
  rfl

theorem balance_take_succ {bs : List Nat} {i : Nat} {c : Nat} (h : bs[i]? = some c) :
    balance (bs.take (i + 1)) = balance (bs.take i) + balance [c] := by
  rw [take_succ_eq h, balance_append]

theorem balance_take_add (bs : List Nat) (a b : Nat) :
    balance (bs.take (a + b)) = balance (bs.take a) + balance ((bs.drop a).take b) := by
  rw [List.take_add, balance_append]

theorem skip_loop_some (bs : List Nat) : ∀ (it : Int) (c : Nat) (r : Int),
    1 ≤ c → c + bs.length < SIZE_MOD → skip_loop bs it c = some r →
    ∃ m, m < bs.length ∧ r = it + m + 1 ∧ bs[m]? = some 93 ∧
      (c : Int) + balance (bs.take (m + 1)) = 0 ∧
      ∀ k, k < m → 0 < (c : Int) + balance (bs.take (k + 1)) := by
  induction bs with
  | nil => intro it c r _ _ h; simp [skip_loop] at h
  | cons b rest ih =>
    intro it c r hc hlen h
    simp only [List.length_cons] at hlen
    obtain ⟨c', hc', hcI⟩ : ∃ c' : Nat,
        (if b = 91 then (c + 1) % SIZE_MOD
          else if b = 93 then (c + SIZE_MOD - 1) % SIZE_MOD else c) = c' ∧
        (c' : Int) = (c : Int) + balance [b] := by
      by_cases h1 : b = 91
      · subst h1
        refine ⟨c + 1, ?_, ?_⟩
        · rw [if_pos rfl]; exact Nat.mod_eq_of_lt (by omega)
        · rw [balance_open]; push_cast; ring
      · by_cases h2 : b = 93
        · subst h2
          refine ⟨c - 1, ?_, ?_⟩
          · rw [if_neg h1, if_pos rfl]
            have : c + SIZE_MOD - 1 = (c - 1) + SIZE_MOD := by omega
            rw [this, Nat.add_mod_right]
            exact Nat.mod_eq_of_lt (by omega)
          · rw [balance_close]; omega
        · refine ⟨c, ?_, ?_⟩
          · rw [if_neg h1, if_neg h2]
          · rw [balance_plain h1 h2]; omega
    have hb := balance_single_le b
    unfold skip_loop at h
    simp only [hc'] at h
    have hsplit : ∀ k, balance ((b :: rest).take (k + 1)) = balance [b] + balance (rest.take k) := by
      intro k
      rw [List.take_succ_cons, balance_cons]
    by_cases hz : c' = 0
    · rw [if_neg (by simp [hz])] at h
      refine ⟨0, by simp, ?_, ?_, ?_, ?_⟩
      · simp only [Option.some.injEq] at h
        rw [← h]; simp
      · -- the byte is a `]`, since the counter went down
        by_cases h2 : b = 93
        · simp [h2]
        · exfalso
          by_cases h1 : b = 91
          · subst h1; rw [balance_open] at hcI; omega
          · rw [balance_plain h1 h2] at hcI; omega
      · rw [hsplit 0]
        simp only [List.take_zero, balance_nil, add_zero]
        omega
      · intro k hk; omega
    · rw [if_pos hz] at h
      obtain ⟨m, hm, hr, hget, hzero, hpos⟩ := ih (it + 1) c' r (by omega) (by omega) h
      refine ⟨m + 1, by simp; omega, ?_, ?_, ?_, ?_⟩
      · rw [hr]; push_cast; ring
      · simpa using hget
      · rw [hsplit (m + 1)]; omega
      · intro k hk
        cases k with
        | zero =>
          rw [hsplit 0]
          simp only [List.take_zero, balance_nil, add_zero]
          omega
        | succ k =>
          rw [hsplit (k + 1)]
          have := hpos k (by omega)
          omega

theorem skip_loop_exists (bs : List Nat) : ∀ (it : Int) (c : Nat),
    1 ≤ c → c + bs.length < SIZE_MOD → (c : Int) + balance bs ≤ 0 →
    ∃ r, skip_loop bs it c = some r := by
  induction bs with
  | nil =>
    intro it c hc _ h
    rw [balance_nil] at h
    omega
  | cons b rest ih =>
    intro it c hc hlen h
    simp only [List.length_cons] at hlen
    obtain ⟨c', hc', hcI⟩ : ∃ c' : Nat,
        (if b = 91 then (c + 1) % SIZE_MOD
          else if b = 93 then (c + SIZE_MOD - 1) % SIZE_MOD else c) = c' ∧
        (c' : Int) = (c : Int) + balance [b] := by
      by_cases h1 : b = 91
      · subst h1
        refine ⟨c + 1, ?_, ?_⟩
        · rw [if_pos rfl]; exact Nat.mod_eq_of_lt (by omega)
        · rw [balance_open]; push_cast; ring
      · by_cases h2 : b = 93
        · subst h2
          refine ⟨c - 1, ?_, ?_⟩
          · rw [if_neg h1, if_pos rfl]
            have : c + SIZE_MOD - 1 = (c - 1) + SIZE_MOD := by omega
            rw [this, Nat.add_mod_right]
            exact Nat.mod_eq_of_lt (by omega)
          · rw [balance_close]; omega
        · refine ⟨c, ?_, ?_⟩
          · rw [if_neg h1, if_neg h2]
          · rw [balance_plain h1 h2]; omega
    have hb := balance_single_le b
    unfold skip_loop
    simp only [hc']
    by_cases hz : c' = 0
    · rw [if_neg (by simp [hz])]
      exact ⟨_, rfl⟩
    · rw [if_pos hz]
      rw [balance_cons] at h
      exact ih (it + 1) c' (by omega) (by omega) (by omega)


theorem cursor_inv_iff (src : List Nat) (s : State) :
    cursor_inv src s ↔ ∃ i : Nat, s.src_iter = (i : Int) ∧ i ≤ src.length ∧
      stack_chain src s.loop_stack (i : Int) ∧
      balance (src.take i) = (s.loop_stack.length : Int) ∧
      ∀ k, k ≤ i → 0 ≤ balance (src.take k) := by
  constructor
  · rintro ⟨h0, h1, h2, h3, h4⟩
    obtain ⟨i, hi⟩ : ∃ i : Nat, s.src_iter = (i : Int) := ⟨s.src_iter.toNat, by omega⟩
    rw [hi] at h1 h2 h3 h4
    simp only [Int.toNat_ofNat] at h3 h4
    exact ⟨i, hi, by omega, h2, h3, h4⟩
  · rintro ⟨i, hi, h1, h2, h3, h4⟩
    refine ⟨by omega, by omega, ?_, ?_, ?_⟩
    · rw [hi]; exact h2
    · rw [hi]; simpa using h3
    · rw [hi]; simpa using h4

theorem stack_chain_mono {src : List Nat} {st : List Int} {c c' : Int}
    (h : stack_chain src st c) (hle : c ≤ c') : stack_chain src st c' := by
  cases st with
  | nil => trivial
  | cons p rest =>
    obtain ⟨h0, h1, h2, h3, h4⟩ := h
    exact ⟨h0, by omega, h2, h3, h4⟩

theorem dispatch_plain {N : Nat} {src : List Nat} {s s' : State} {c : Nat}
    (h91 : c ≠ 91) (h93 : c ≠ 93) (h : dispatch N src s c = .next s') :
    s'.src_iter = s.src_iter + 1 ∧ s'.loop_stack = s.loop_stack := by
  rcases byte_cases c with rfl | rfl | rfl | rfl | rfl | rfl | rfl | rfl | ⟨h1, h2, h3, h4, h5, h6, h7, h8⟩
  · rw [dispatch_incr] at h
    split_ifs at h
    cases h; exact ⟨rfl, rfl⟩
  · rw [dispatch_decr] at h
    split_ifs at h
    cases h; exact ⟨rfl, rfl⟩
  · rw [dispatch_right] at h
    split_ifs at h <;> (cases h; exact ⟨rfl, rfl⟩)
  · rw [dispatch_left] at h
    split_ifs at h <;> (cases h; exact ⟨rfl, rfl⟩)
  · rw [dispatch_put] at h
    split_ifs at h
    cases h; exact ⟨rfl, rfl⟩
  · rw [dispatch_get] at h
    split_ifs at h
    all_goals try split at h
    all_goals cases h
    all_goals exact ⟨rfl, rfl⟩
  · exact absurd rfl h91
  · exact absurd rfl h93
  · rw [dispatch_other N src s c h1 h2 h3 h4 h5 h6 h7 h8] at h
    cases h; exact ⟨rfl, rfl⟩

theorem cursor_inv_init (src input : List Nat) : cursor_inv src (init_state input) := by
  refine ⟨le_refl _, ?_, trivial, ?_, ?_⟩
  · show (0 : Int) ≤ (src.length : Int)
    omega
  · show balance (src.take (0 : Int).toNat) = ((([] : List Int).length : Nat) : Int)
    simp [balance_nil]
  · intro k hk
    have hk0 : k = 0 := by
      have : (init_state input).src_iter.toNat = 0 := rfl
      omega
    subst hk0
    simp [balance_nil]

theorem cursor_inv_step {N : Nat} {src : List Nat} {s s' : State}
    (hlen : src.length < SIZE_MOD) (hinv : cursor_inv src s) (hstep : step N src s = .next s') :
    cursor_inv src s' := by
  obtain ⟨i, hi, hile, hchain, hbal, hpre⟩ := (cursor_inv_iff src s).mp hinv
  unfold step at hstep
  split_ifs at hstep
  split at hstep
  · cases hstep
  · rename_i c hc
    obtain ⟨_, hilt, hget⟩ := src_at_some hc
    rw [hi] at hget hilt
    simp only [Int.toNat_ofNat] at hget hilt
    have hsucc := balance_take_succ hget
    rw [cursor_inv_iff]
    by_cases h91 : c = 91
    · subst h91
      rw [dispatch_open] at hstep
      rw [balance_open] at hsucc
      split_ifs at hstep
      · -- the loop is entered
        cases hstep
        refine ⟨i + 1, by simp [hi], by omega, ?_, ?_, ?_⟩
        · refine ⟨by omega, by rw [hi]; push_cast; omega, hc, ?_, ?_⟩
          · rw [hi]; simpa using hbal
          · rw [hi]; exact hchain
        · rw [hsucc, hbal]; simp
        · intro k hk
          by_cases hk' : k ≤ i
          · exact hpre k hk'
          · have : k = i + 1 := by omega
            subst this
            rw [hsucc, hbal]; omega
      · -- the loop is skipped
        split at hstep
        · cases hstep
        · rename_i j hj
          cases hstep
          rw [hi] at hj
          simp only [Int.toNat_ofNat] at hj
          obtain ⟨m, hm, hr, _, hzero, hpos⟩ :=
            skip_loop_some (src.drop (i + 1)) (i : Int) 1 j (le_refl 1)
              (by simp only [List.length_drop]; omega) hj
          simp only [List.length_drop] at hm
          have hadd : ∀ k, balance (src.take (i + 1 + k))
              = balance (src.take i) + 1 + balance ((src.drop (i + 1)).take k) := by
            intro k
            rw [balance_take_add, hsucc]
          refine ⟨i + 1 + (m + 1), by rw [hr]; push_cast; ring, by omega, ?_, ?_, ?_⟩
          · exact stack_chain_mono hchain (by push_cast; omega)
          · dsimp only
            rw [hadd (m + 1), hbal]
            push_cast at hzero
            omega
          · intro k hk
            by_cases hk' : k ≤ i
            · exact hpre k hk'
            · obtain ⟨k', rfl⟩ : ∃ k', k = i + 1 + k' := ⟨k - (i + 1), by omega⟩
              rw [hadd k', hbal]
              cases k' with
              | zero => simp [balance_nil]; omega
              | succ k'' =>
                by_cases hlt : k'' < m
                · have := hpos k'' hlt
                  push_cast at this
                  omega
                · have : k'' = m := by omega
                  subst this
                  push_cast at hzero
                  omega
    · by_cases h93 : c = 93
      · subst h93
        rw [dispatch_close] at hstep
        rw [balance_close] at hsucc
        split at hstep
        · cases hstep
        · rename_i p rest hst
          cases hstep
          rw [hst] at hchain hbal
          obtain ⟨hp0, hpc, _, hpb, hrest⟩ := hchain
          obtain ⟨q, hq⟩ : ∃ q : Nat, p = (q : Int) := ⟨p.toNat, by omega⟩
          rw [hq] at hpb hrest hpc
          simp only [Int.toNat_ofNat] at hpb
          refine ⟨q, by rw [hq]; ring, by omega, hrest, hpb, ?_⟩
          intro k hk
          exact hpre k (by omega)
      · obtain ⟨e1, e2⟩ := dispatch_plain h91 h93 hstep
        rw [balance_plain h91 h93] at hsucc
        refine ⟨i + 1, by rw [e1, hi]; push_cast; ring, by omega, ?_, ?_, ?_⟩
        · rw [e2]; exact stack_chain_mono hchain (by push_cast; omega)
        · rw [e2, hsucc, hbal]; simp
        · intro k hk
          by_cases hk' : k ≤ i
          · exact hpre k hk'
          · have : k = i + 1 := by omega
            subst this
            rw [hsucc, hbal]; omega

theorem reachable_cursor_inv {N : Nat} {src input : List Nat} {s : State}
    (hlen : src.length < SIZE_MOD) (hr : Reachable N src input s) : cursor_inv src s := by
  induction hr with
  | init => exact cursor_inv_init src input
  | step _ hstep ih => exact cursor_inv_step hlen ih hstep


/-! ## The loop stack -/

theorem skip_loop_cons (b : Nat) (rest : List Nat) (it : Int) (c0 : Nat) :
    skip_loop (b :: rest) it c0 =
      if (if b = 91 then (c0 + 1) % SIZE_MOD
          else if b = 93 then (c0 + SIZE_MOD - 1) % SIZE_MOD else c0) ≠ 0
      then skip_loop rest (it + 1)
        (if b = 91 then (c0 + 1) % SIZE_MOD
          else if b = 93 then (c0 + SIZE_MOD - 1) % SIZE_MOD else c0)
      else some (it + 1) := by
  rw [skip_loop]

theorem skip_loop_gt (bs : List Nat) : ∀ (it : Int) (c : Nat) (r : Int),
    skip_loop bs it c = some r → it < r := by
  induction bs with
  | nil => intro it c r h; simp [skip_loop] at h
  | cons b rest ih =>
    intro it c r h
    rw [skip_loop_cons] at h
    split_ifs at h
    all_goals first
      | exact lt_trans (lt_add_one it) (ih _ _ _ h)
      | (simp only [Option.some.injEq] at h; omega)

/-- The saved cursors are never the offset 0: the `[` at offset 0 is only met
in the initial state, where the current cell is 0, so line 259 never steps
below the first byte of the source. -/
theorem reachable_stack_pos {N : Nat} {src input : List Nat} {s : State}
    (hr : Reachable N src input s) :
    0 ≤ s.src_iter ∧ (s.src_iter = 0 → s.mem_buf s.data_ptr = 0) ∧
      ∀ p ∈ s.loop_stack, 0 < p := by
  induction hr with
  | init => exact ⟨le_refl _, fun _ => rfl, fun p hp => by cases hp⟩
  | @step s s' _ hstep ih =>
    obtain ⟨h0, hcell, hst⟩ := ih
    unfold step at hstep
    split_ifs at hstep
    split at hstep
    · cases hstep
    · rename_i c hc
      by_cases h91 : c = 91
      · subst h91
        rw [dispatch_open] at hstep
        split_ifs at hstep with _ _ hnz
        · cases hstep
          have hpos : 0 < s.src_iter := by
            rcases lt_or_eq_of_le h0 with h | h
            · exact h
            · exact absurd (hcell h.symm) hnz
          refine ⟨by show 0 ≤ s.src_iter + 1; omega,
            fun h => by exfalso; change s.src_iter + 1 = 0 at h; omega, ?_⟩
          intro p hp
          rcases List.mem_cons.mp hp with rfl | hp'
          · exact hpos
          · exact hst p hp'
        · split at hstep
          · cases hstep
          · rename_i j hj
            cases hstep
            have := skip_loop_gt _ _ _ _ hj
            exact ⟨by show 0 ≤ j + 1; omega,
              fun h => by exfalso; change j + 1 = 0 at h; omega, hst⟩
      · by_cases h93 : c = 93
        · subst h93
          rw [dispatch_close] at hstep
          split at hstep
          · cases hstep
          · rename_i p rest hpr
            cases hstep
            have hp : 0 < p := hst p (by rw [hpr]; exact List.mem_cons_self _ _)
            refine ⟨by show 0 ≤ p - 1 + 1; omega,
              fun h => by exfalso; change p - 1 + 1 = 0 at h; omega, ?_⟩
            intro q hq
            exact hst q (by rw [hpr]; exact List.mem_cons_of_mem _ hq)
        · obtain ⟨e1, e2⟩ := dispatch_plain h91 h93 hstep
          refine ⟨by omega, fun h => by exfalso; omega, ?_⟩
          rw [e2]
          exact hst

theorem step_halt_cursor {N : Nat} {src : List Nat} {s : State} (h : step N src s = .halt) :
    s.src_iter = (src.length : Int) := by
  unfold step at h
  split_ifs at h with h0
  · exact h0
  · split at h
    · cases h
    · rename_i c hc
      exfalso
      rcases byte_cases c with rfl | rfl | rfl | rfl | rfl | rfl | rfl | rfl | ⟨h1, h2, h3, h4, h5, h6, h7, h8⟩
      · rw [dispatch_incr] at h; split_ifs at h
      · rw [dispatch_decr] at h; split_ifs at h
      · rw [dispatch_right] at h; split_ifs at h
      · rw [dispatch_left] at h; split_ifs at h
      · rw [dispatch_put] at h; split_ifs at h
      · rw [dispatch_get] at h
        split_ifs at h
        all_goals try split at h
        all_goals cases h
      · rw [dispatch_open] at h
        split_ifs at h
        all_goals try split at h
        all_goals cases h
      · rw [dispatch_close] at h
        split at h <;> cases h
      · rw [dispatch_other N src s c h1 h2 h3 h4 h5 h6 h7 h8] at h
        cases h

theorem step_close_pop {N : Nat} {src : List Nat} {s : State} {p : Int} {rest : List Int}
    (hc : src_at src s.src_iter = some 93) (hst : s.loop_stack = p :: rest) :
    step N src s = .next { s with loop_stack := rest, src_iter := p } := by
  rw [step_of_byte hc, dispatch_close, hst]
  simp only [sub_add_cancel]

/-- C15. In a reachable state (a source shorter than 2^64 bytes) whose cursor
is on a `]` while the loop stack is `p :: rest`, the pass removes exactly the
top entry `p` and sets the cursor to `p`; the tape, the data pointer, the
input and the output are unchanged.  The byte at `p` is a `[`, below the `]`,
so the next pass dispatches that `[` in the new state, against the current
cell.  The pass itself does this for every `p`, the first byte included
(`step_close_pop`); in a reachable state `p` is never the first byte. -/
theorem loop_close_jump (N : Nat) (src input : List Nat) (s : State) (p : Int)
    (rest : List Int) (hlen : src.length < SIZE_MOD) (hr : Reachable N src input s)
    (hc : src_at src s.src_iter = some 93) (hst : s.loop_stack = p :: rest) :
    step N src s = .next { s with loop_stack := rest, src_iter := p } ∧
    src_at src p = some 91 ∧ 0 < p ∧ p < s.src_iter ∧
    step N src { s with loop_stack := rest, src_iter := p }
      = dispatch N src { s with loop_stack := rest, src_iter := p } 91 ∧
    (∀ fuel, dispatched N src (fuel + 2) s
      = s.src_iter :: dispatched N src (fuel + 1)
          { s with loop_stack := rest, src_iter := p }) := by
  obtain ⟨_, _, hchain, _, _⟩ := reachable_cursor_inv hlen hr
  rw [hst] at hchain
  obtain ⟨_, hpc, hp91, _, _⟩ := hchain
  have hp0 : 0 < p := (reachable_stack_pos hr).2.2 p (by rw [hst]; exact List.mem_cons_self _ _)
  have hstep := @step_close_pop N src s p rest hc hst
  refine ⟨hstep, hp91, hp0, hpc, ?_, ?_⟩
  · exact step_of_byte hp91
  · intro fuel
    rw [dispatched_next (fuel + 1) hstep]

theorem loop_close_jump_witness :
    [43, 91, 45, 93].length < SIZE_MOD ∧
    Reachable 3 [43, 91, 45, 93] [] ⟨3, 0, store (store (fun _ => 0) 0 1) 0 0, [1], [], []⟩ ∧
    src_at [43, 91, 45, 93] (3 : Int) = some 93 ∧
    step 3 [43, 91, 45, 93] ⟨3, 0, store (store (fun _ => 0) 0 1) 0 0, [1], [], []⟩
      = .next ⟨1, 0, store (store (fun _ => 0) 0 1) 0 0, [], [], []⟩ ∧
    src_at [43, 91, 45, 93] (1 : Int) = some 91 :=
  have h1 : Reachable 3 [43, 91, 45, 93] [] ⟨1, 0, store (fun _ => 0) 0 1, [], [], []⟩ :=
    Reachable.step Reachable.init rfl
  have h2 : Reachable 3 [43, 91, 45, 93] [] ⟨2, 0, store (fun _ => 0) 0 1, [1], [], []⟩ :=
    Reachable.step h1 rfl
  have h3 : Reachable 3 [43, 91, 45, 93] []
      ⟨3, 0, store (store (fun _ => 0) 0 1) 0 0, [1], [], []⟩ :=
    Reachable.step h2 rfl
  have h := loop_close_jump 3 [43, 91, 45, 93] []
    ⟨3, 0, store (store (fun _ => 0) 0 1) 0 0, [1], [], []⟩ 1 [] (by decide) h3 rfl rfl
  ⟨by decide, h3, rfl, h.1, h.2.1⟩

theorem stack_chain_length {src : List Nat} : ∀ (st : List Int) (c : Nat),
    c ≤ src.length → stack_chain src st (c : Int) → st.length ≤ (src.take c).count 91 := by
  intro st
  induction st with
  | nil => intro c _ _; simp
  | cons p rest ih =>
    intro c hc h
    obtain ⟨hp0, hpc, hp91, _, hrest⟩ := h
    obtain ⟨q, hq⟩ : ∃ q : Nat, p = (q : Int) := ⟨p.toNat, by omega⟩
    subst hq
    have hq : q < c := by omega
    have hget : src[q]? = some 91 := by
      rw [src_at_natCast] at hp91; exact hp91
    have h1 := ih q (by omega) hrest
    have h2 : (src.take (q + 1)).count 91 = (src.take q).count 91 + 1 := by
      rw [take_succ_eq hget, List.count_append]
      simp
    have h3 : (src.take (q + 1)).count 91 ≤ (src.take c).count 91 := by
      apply List.Sublist.count_le
      have : src.take (q + 1) = (src.take c).take (q + 1) := by
        rw [List.take_take]
        congr 1
        omega
      rw [this]
      exact List.take_sublist _ _
    simp only [List.length_cons]
    omega

theorem reachable_depth_le {N : Nat} {src input : List Nat} {s : State}
    (hlen : src.length < SIZE_MOD) (hr : Reachable N src input s) :
    s.loop_stack.length ≤ src.count 91 := by
  obtain ⟨i, _, hile, hchain, _, _⟩ := (cursor_inv_iff src s).mp (reachable_cursor_inv hlen hr)
  have h1 := stack_chain_length s.loop_stack i hile hchain
  have h2 : (src.take i).count 91 ≤ src.count 91 :=
    List.Sublist.count_le (List.take_sublist _ _) _
  omega

/-- C16. For a source shorter than 2^61 bytes (so that the byte size asked of
`operator new` does not wrap), the buffer of the loop stack holds as many
entries as the source has `[` bytes; in every reachable state the depth of the
loop stack is at most that number, and a pass that pushes (cursor on `[`,
current cell not 0, tape capacity `N >= 1`) starts from a depth strictly below
it, so the entry it writes is inside the buffer. -/
theorem loop_stack_capacity_bound (N : Nat) (src input : List Nat) (s : State)
    (hN : 0 < N) (hlen : src.length * 8 < SIZE_MOD) (hr : Reachable N src input s) :
    loop_stack_capacity src = src.count 91 ∧
    s.loop_stack.length ≤ loop_stack_capacity src ∧
    (src_at src s.src_iter = some 91 → s.mem_buf s.data_ptr ≠ 0 →
      step N src s = .next { s with loop_stack := s.src_iter :: s.loop_stack,
                                    src_iter := s.src_iter + 1 } ∧
      s.loop_stack.length < loop_stack_capacity src) := by
  have hlen' : src.length < SIZE_MOD := by omega
  have hcap : loop_stack_capacity src = src.count 91 := by
    unfold loop_stack_capacity
    rw [count_brackets_zero src hlen']
    have hle : src.count 91 ≤ src.length := List.count_le_length _ _
    rw [Nat.mod_eq_of_lt (by omega)]
    omega
  rw [hcap]
  refine ⟨rfl, reachable_depth_le hlen' hr, ?_⟩
  intro hc hcell
  have hp := reachable_data_ptr_lt hN hr
  have hstep : step N src s = .next { s with loop_stack := s.src_iter :: s.loop_stack,
                                             src_iter := s.src_iter + 1 } := by
    rw [step_of_byte hc, dispatch_open, if_neg (by omega), if_neg (by omega), if_pos hcell]
  refine ⟨hstep, ?_⟩
  have := reachable_depth_le hlen' (Reachable.step hr hstep)
  simp only [List.length_cons] at this
  omega

theorem loop_stack_capacity_bound_witness :
    0 < 3 ∧ [43, 91, 45, 93].length * 8 < SIZE_MOD ∧
    Reachable 3 [43, 91, 45, 93] [] ⟨1, 0, store (fun _ => 0) 0 1, [], [], []⟩ ∧
    loop_stack_capacity [43, 91, 45, 93] = 1 ∧
    src_at [43, 91, 45, 93] (1 : Int) = some 91 ∧ store (fun _ => 0) 0 1 0 ≠ 0 ∧
    step 3 [43, 91, 45, 93] ⟨1, 0, store (fun _ => 0) 0 1, [], [], []⟩
      = .next ⟨1 + 1, 0, store (fun _ => 0) 0 1, [1], [], []⟩ ∧
    (⟨1, 0, store (fun _ => 0) 0 1, [], [], []⟩ : State).loop_stack.length
      < loop_stack_capacity [43, 91, 45, 93] :=
  have h1 : Reachable 3 [43, 91, 45, 93] [] ⟨1, 0, store (fun _ => 0) 0 1, [], [], []⟩ :=
    Reachable.step Reachable.init rfl
  have h := loop_stack_capacity_bound 3 [43, 91, 45, 93] []
    ⟨1, 0, store (fun _ => 0) 0 1, [], [], []⟩ (by decide) (by decide) h1
  ⟨by decide, by decide, h1, h.1, rfl, by decide, (h.2.2 rfl (by decide)).1,
    (h.2.2 rfl (by decide)).2⟩


theorem balance_eq_zero_iff (src : List Nat) : balance src = 0 ↔ src.count 91 = src.count 93 := by
  unfold balance
  omega

theorem well_nested_counts {src : List Nat} (h : well_nested src) :
    src.count 91 = src.count 93 :=
  (balance_eq_zero_iff src).mp h.1

/-- C17. For a well-nested source (shorter than 2^64 bytes) and every input,
the loop stack is empty in the initial state, and whenever the dispatch loop
runs to the end of the source the loop stack is empty in the final state. -/
theorem loop_stack_empty_at_ends (N : Nat) (src input : List Nat)
    (hlen : src.length < SIZE_MOD) (hwn : well_nested src) :
    (init_state input).loop_stack = [] ∧
    (∀ fuel s, run_loop N src fuel (init_state input) = .finished s → s.loop_stack = []) ∧
    (∀ (munmap_ok : Bool) fuel s,
      (bfi_main N src input true munmap_ok fuel).outcome = .finished s → s.loop_stack = []) := by
  have hfin : ∀ fuel s, run_loop N src fuel (init_state input) = .finished s →
      s.loop_stack = [] := by
    intro fuel s hrun
    have hreach := @run_loop_reachable N src input fuel (init_state input) Reachable.init
    rw [hrun] at hreach
    have hend := step_halt_cursor (run_loop_finished_step fuel _ s hrun)
    obtain ⟨i, hi, _, _, hbal, _⟩ :=
      (cursor_inv_iff src s).mp (reachable_cursor_inv hlen hreach)
    have hil : i = src.length := by omega
    subst hil
    rw [List.take_length, hwn.1] at hbal
    have : s.loop_stack.length = 0 := by omega
    exact List.length_eq_zero.mp this
  refine ⟨rfl, hfin, ?_⟩
  intro munmap_ok fuel s h
  rw [bfi_main_balanced_outcome N src input munmap_ok fuel hlen (well_nested_counts hwn)] at h
  exact hfin fuel s h

theorem loop_stack_empty_at_ends_witness :
    [43, 91, 45, 93].length < SIZE_MOD ∧ well_nested [43, 91, 45, 93] ∧
    run_loop 3 [43, 91, 45, 93] 6 (init_state [])
      = .finished ⟨4, 0, fun _ => 0, [], [], []⟩ ∧
    (⟨4, 0, fun _ => 0, [], [], []⟩ : State).loop_stack = [] :=
  have hwn : well_nested [43, 91, 45, 93] := ⟨by decide, by decide⟩
  have hrun := (loop_reentry_run 3 [] (by decide)).1
  ⟨by decide, hwn, hrun,
    (loop_stack_empty_at_ends 3 [43, 91, 45, 93] [] (by decide) hwn).2.1 6 _ hrun⟩

/-! ## The forward scan stays inside the source -/

theorem depth_after_eq (src : List Nat) (i k : Nat) :
    depth_after src i k = 1 + balance ((src.drop (i + 1)).take (k - i)) := by
  unfold depth_after balance
  ring

theorem reachable_open_matching {N : Nat} {src input : List Nat} {s : State} {i : Nat}
    (hlen : src.length < SIZE_MOD) (heq : src.count 91 = src.count 93)
    (hr : Reachable N src input s) (hi : s.src_iter = (i : Int)) (hc : src[i]? = some 91) :
    ∃ j : Nat, j < src.length ∧ Matching src i j ∧
      skip_loop (src.drop (i + 1)) (i : Int) 1 = some (j : Int) := by
  obtain ⟨i', hi', hile, _, hbal, _⟩ :=
    (cursor_inv_iff src s).mp (reachable_cursor_inv hlen hr)
  have : i' = i := by omega
  subst this
  have hilt : i' < src.length := by
    by_contra hge
    rw [List.getElem?_eq_none (by omega)] at hc
    cases hc
  have hsucc := balance_take_succ hc
  rw [balance_open] at hsucc
  have htot : balance src = balance (src.take (i' + 1)) + balance (src.drop (i' + 1)) := by
    rw [← balance_append, List.take_append_drop]
  have hzero : balance src = 0 := (balance_eq_zero_iff src).mpr heq
  obtain ⟨r, hr'⟩ := skip_loop_exists (src.drop (i' + 1)) (i' : Int) 1 (le_refl 1)
    (by simp only [List.length_drop]; omega) (by push_cast; omega)
  obtain ⟨m, hm, hrm, hget, hz, hpos⟩ := skip_loop_some (src.drop (i' + 1)) (i' : Int) 1 r
    (le_refl 1) (by simp only [List.length_drop]; omega) hr'
  simp only [List.length_drop] at hm
  refine ⟨i' + 1 + m, by omega, ⟨hc, ?_, by omega, ?_, ?_⟩, ?_⟩
  · rw [List.getElem?_drop] at hget
    exact hget
  · rw [depth_after_eq]
    have e : i' + 1 + m - i' = m + 1 := by omega
    rw [e]
    push_cast at hz
    exact hz
  · intro k hk hik
    rw [depth_after_eq]
    obtain ⟨k', rfl⟩ : ∃ k', k = i' + 1 + k' := ⟨k - (i' + 1), by omega⟩
    have e : i' + 1 + k' - i' = k' + 1 := by omega
    rw [e]
    have := hpos k' (by omega)
    push_cast at this
    omega
  · rw [hr', hrm]
    congr 1
    push_cast
    ring

/-- C18. For a source with as many `[` as `]` (shorter than 2^64 bytes, well
nested or not) and every input: in a reachable state whose cursor is on a `[`
at offset `i`, the scan of lines 235-246 started there ends on a `]` at an
offset `j` below the length of the source, the `]` matching that `[`, without
reading beyond the last source byte; so with the current cell 0 and a tape of
`N >= 1` cells the pass completes with the cursor at `j + 1`. -/
theorem forward_skip_in_bounds (N : Nat) (src input : List Nat) (s : State) (i : Nat)
    (hN : 0 < N) (hlen : src.length < SIZE_MOD) (heq : src.count 91 = src.count 93)
    (hr : Reachable N src input s) (hi : s.src_iter = (i : Int))
    (hc : src_at src s.src_iter = some 91) :
    ∃ j : Nat, skip_loop (src.drop (s.src_iter.toNat + 1)) s.src_iter 1 = some (j : Int) ∧
      j < src.length ∧ i < j ∧ src[j]? = some 93 ∧ Matching src i j ∧
      (s.mem_buf s.data_ptr = 0 →
        step N src s = .next { s with src_iter := (j : Int) + 1 }) := by
  have hc' : src[i]? = some 91 := by
    rw [hi, src_at_natCast] at hc; exact hc
  obtain ⟨j, hj, hm, hskip⟩ := reachable_open_matching hlen heq hr hi hc'
  refine ⟨j, ?_, hj, hm.2.2.1, hm.2.1, hm, ?_⟩
  · rw [hi]
    simp only [Int.toNat_ofNat]
    exact hskip
  · intro hcell
    have hp := reachable_data_ptr_lt hN hr
    rw [step_of_byte hc, dispatch_open, if_neg (by omega), if_neg (by omega),
      if_neg (by simp [hcell]), hi]
    simp only [Int.toNat_ofNat]
    rw [hskip]

theorem forward_skip_in_bounds_witness :
    0 < 3 ∧ [91, 93, 91, 43, 93].length < SIZE_MOD ∧
    [91, 93, 91, 43, 93].count 91 = [91, 93, 91, 43, 93].count 93 ∧
    Reachable 3 [91, 93, 91, 43, 93] [] ⟨2, 0, fun _ => 0, [], [], []⟩ ∧
    src_at [91, 93, 91, 43, 93] (2 : Int) = some 91 ∧
    ∃ j : Nat, skip_loop ([91, 93, 91, 43, 93].drop ((2 : Int).toNat + 1)) (2 : Int) 1
        = some (j : Int) ∧
      j < [91, 93, 91, 43, 93].length ∧ 2 < j ∧ [91, 93, 91, 43, 93][j]? = some 93 ∧
      Matching [91, 93, 91, 43, 93] 2 j ∧
      ((fun _ => 0 : Nat → Nat) 0 = 0 →
        step 3 [91, 93, 91, 43, 93] ⟨2, 0, fun _ => 0, [], [], []⟩
          = .next { (⟨2, 0, fun _ => 0, [], [], []⟩ : State) with src_iter := (j : Int) + 1 }) :=
  have h1 : Reachable 3 [91, 93, 91, 43, 93] [] ⟨2, 0, fun _ => 0, [], [], []⟩ :=
    Reachable.step Reachable.init rfl
  ⟨by decide, by decide, by decide, h1, rfl,
    forward_skip_in_bounds 3 [91, 93, 91, 43, 93] [] ⟨2, 0, fun _ => 0, [], [], []⟩ 2
      (by decide) (by decide) (by decide) h1 rfl rfl⟩


/-! ## Nesting and the way a run ends -/

theorem src_at_of_lt (src : List Nat) (i : Nat) (h : i < src.length) :
    ∃ c, src_at src (i : Int) = some c := by
  rw [src_at_natCast]
  exact ⟨src[i], List.getElem?_eq_getElem h⟩

theorem dispatch_undefined_cases {N : Nat} {src : List Nat} {s : State} {c : Nat}
    (h : dispatch N src s c = .undefined) :
    N < s.data_ptr ∨
      (c = 91 ∧ skip_loop (src.drop (s.src_iter.toNat + 1)) s.src_iter 1 = none) := by
  rcases byte_cases c with rfl | rfl | rfl | rfl | rfl | rfl | rfl | rfl | ⟨h1, h2, h3, h4, h5, h6, h7, h8⟩
  · rw [dispatch_incr] at h
    split_ifs at h with _ h0
    exact Or.inl h0
  · rw [dispatch_decr] at h
    split_ifs at h with _ h0
    exact Or.inl h0
  · rw [dispatch_right] at h; split_ifs at h
  · rw [dispatch_left] at h; split_ifs at h
  · rw [dispatch_put] at h
    split_ifs at h with _ h0
    exact Or.inl h0
  · rw [dispatch_get] at h
    by_cases h0 : N < s.data_ptr
    · exact Or.inl h0
    · split_ifs at h
      split at h <;> cases h
  · rw [dispatch_open] at h
    by_cases h0 : N < s.data_ptr
    · exact Or.inl h0
    · split_ifs at h
      split at h
      · rename_i hnone
        exact Or.inr ⟨rfl, hnone⟩
      · cases h
  · rw [dispatch_close] at h
    split at h <;> cases h
  · rw [dispatch_other N src s c h1 h2 h3 h4 h5 h6 h7 h8] at h
    cases h

theorem reachable_step_defined {N : Nat} {src input : List Nat} {s : State}
    (hN : 0 < N) (hlen : src.length < SIZE_MOD) (heq : src.count 91 = src.count 93)
    (hr : Reachable N src input s) : step N src s ≠ .undefined := by
  intro h
  obtain ⟨i, hi, hile, _, _, _⟩ := (cursor_inv_iff src s).mp (reachable_cursor_inv hlen hr)
  have hp := reachable_data_ptr_lt hN hr
  unfold step at h
  split_ifs at h with hend
  have hilt : i < src.length := by omega
  obtain ⟨c, hc⟩ := src_at_of_lt src i hilt
  rw [hi, hc] at h
  simp only at h
  rcases dispatch_undefined_cases h with h0 | ⟨rfl, hnone⟩
  · omega
  · rw [src_at_natCast] at hc
    obtain ⟨j, _, _, hskip⟩ := reachable_open_matching hlen heq hr hi hc
    rw [hi] at hnone
    simp only [Int.toNat_ofNat] at hnone
    rw [hskip] at hnone
    cases hnone

theorem reachable_close_nonempty {N : Nat} {src input : List Nat} {s : State}
    (hlen : src.length < SIZE_MOD) (hwn : well_nested src)
    (hr : Reachable N src input s) (hc : src_at src s.src_iter = some 93) :
    s.loop_stack ≠ [] := by
  obtain ⟨i, hi, hile, _, hbal, _⟩ := (cursor_inv_iff src s).mp (reachable_cursor_inv hlen hr)
  rw [hi, src_at_natCast] at hc
  have hilt : i < src.length := by
    by_contra hge
    rw [List.getElem?_eq_none (by omega)] at hc
    cases hc
  have hsucc := balance_take_succ hc
  rw [balance_close] at hsucc
  have hpre := hwn.2 (i + 1) (by omega)
  intro hnil
  rw [hnil] at hbal
  simp only [List.length_nil, Nat.cast_zero] at hbal
  omega

theorem dispatch_fail_loop_end {N : Nat} {src : List Nat} {s : State} {c : Nat}
    (h : dispatch N src s c = .fail .UnexpectedLoopEnd) : c = 93 ∧ s.loop_stack = [] := by
  rcases byte_cases c with rfl | rfl | rfl | rfl | rfl | rfl | rfl | rfl | ⟨h1, h2, h3, h4, h5, h6, h7, h8⟩
  · rw [dispatch_incr] at h; split_ifs at h; cases h
  · rw [dispatch_decr] at h; split_ifs at h; cases h
  · rw [dispatch_right] at h; split_ifs at h
  · rw [dispatch_left] at h; split_ifs at h
  · rw [dispatch_put] at h; split_ifs at h; cases h
  · rw [dispatch_get] at h
    split_ifs at h
    all_goals try split at h
    all_goals cases h
  · rw [dispatch_open] at h
    split_ifs at h
    all_goals try split at h
    all_goals cases h
  · rw [dispatch_close] at h
    split at h
    · rename_i hst
      exact ⟨rfl, hst⟩
    · cases h
  · rw [dispatch_other N src s c h1 h2 h3 h4 h5 h6 h7 h8] at h
    cases h

theorem step_fail_loop_end {N : Nat} {src : List Nat} {s : State}
    (h : step N src s = .fail .UnexpectedLoopEnd) :
    src_at src s.src_iter = some 93 ∧ s.loop_stack = [] := by
  unfold step at h
  split_ifs at h
  split at h
  · cases h
  · rename_i c hc
    obtain ⟨rfl, hst⟩ := dispatch_fail_loop_end h
    exact ⟨hc, hst⟩

theorem finished_well_nested {N : Nat} {src input : List Nat} {fuel : Nat} {s : State}
    (hlen : src.length < SIZE_MOD) (heq : src.count 91 = src.count 93)
    (hrun : run_loop N src fuel (init_state input) = .finished s) : well_nested src := by
  have hreach := @run_loop_reachable N src input fuel (init_state input) Reachable.init
  rw [hrun] at hreach
  have hend := step_halt_cursor (run_loop_finished_step fuel _ s hrun)
  obtain ⟨i, hi, _, _, _, hpre⟩ := (cursor_inv_iff src s).mp (reachable_cursor_inv hlen hreach)
  have hil : i = src.length := by omega
  subst hil
  exact ⟨(balance_eq_zero_iff src).mpr heq, hpre⟩

/-- C19. For a source with as many `[` as `]` (shorter than 2^64 bytes), every
input and a tape of `N >= 1` cells: if the source is well nested, no run ends
with `UnexpectedLoopEnd`; if it is not well nested, no run completes, and a
run whose loop stack was allocated either fails with `UnexpectedLoopEnd` or is
still running when its passes are used up. -/
theorem nesting_and_outcome (N : Nat) (src input : List Nat) (hN : 0 < N)
    (hlen : src.length < SIZE_MOD) (heq : src.count 91 = src.count 93) :
    (well_nested src → ∀ (alloc_ok munmap_ok : Bool) (fuel : Nat),
      (bfi_main N src input alloc_ok munmap_ok fuel).outcome.fault
        ≠ some .UnexpectedLoopEnd) ∧
    (¬ well_nested src → ∀ (alloc_ok munmap_ok : Bool) (fuel : Nat),
      (bfi_main N src input alloc_ok munmap_ok fuel).outcome.completed = false ∧
      (alloc_ok = true →
        ∃ s, (bfi_main N src input true munmap_ok fuel).outcome = .failed .UnexpectedLoopEnd s ∨
          (bfi_main N src input true munmap_ok fuel).outcome = .out_of_fuel s)) := by
  constructor
  · intro hwn alloc_ok munmap_ok fuel
    rw [bfi_main_balanced N src input alloc_ok munmap_ok fuel hlen heq]
    cases alloc_ok with
    | false => simp [Outcome.fault]
    | true =>
      simp only [Bool.true_eq_false, if_false]
      cases hrun : run_loop N src fuel (init_state input) with
      | finished s => simp [Outcome.fault]
      | failed d s =>
        simp only [Outcome.fault, ne_eq, Option.some.injEq]
        intro hd
        subst hd
        have hreach := @run_loop_reachable N src input fuel (init_state input) Reachable.init
        rw [hrun] at hreach
        obtain ⟨hc, hst⟩ := step_fail_loop_end (run_loop_failed_step fuel _ s _ hrun)
        exact reachable_close_nonempty hlen hwn hreach hc hst
      | undefined s => simp [Outcome.fault]
      | out_of_fuel s => simp [Outcome.fault]
  · intro hnw alloc_ok munmap_ok fuel
    cases alloc_ok with
    | false =>
      rw [bfi_main_balanced N src input false munmap_ok fuel hlen heq]
      exact ⟨rfl, fun h => (by cases h)⟩
    | true =>
      rw [bfi_main_balanced_outcome N src input munmap_ok fuel hlen heq]
      have hreach := @run_loop_reachable N src input fuel (init_state input) Reachable.init
      cases hrun : run_loop N src fuel (init_state input) with
      | finished s => exact absurd (finished_well_nested hlen heq hrun) hnw
      | failed d s =>
        rw [hrun] at hreach
        have hreach : Reachable N src input s := hreach
        have hstep := run_loop_failed_step fuel _ s _ hrun
        rcases step_fail_cases hstep with rfl | ⟨op, rfl⟩
        · exact ⟨rfl, fun _ => ⟨s, Or.inl rfl⟩⟩
        · have h1 := @reachable_data_ptr_lt N src input s hN hreach
          have h2 := step_fail_invalid hstep
          omega
      | undefined s =>
        rw [hrun] at hreach
        exact absurd (run_loop_undefined_step fuel _ s hrun)
          (reachable_step_defined hN hlen heq hreach)
      | out_of_fuel s => exact ⟨rfl, fun _ => ⟨s, Or.inr rfl⟩⟩

theorem nesting_and_outcome_witness :
    (0 < 3 ∧ [91, 93].length < SIZE_MOD ∧ [91, 93].count 91 = [91, 93].count 93 ∧
      well_nested [91, 93] ∧
      (bfi_main 3 [91, 93] [] true true 5).outcome.fault ≠ some .UnexpectedLoopEnd) ∧
    ([93, 91].length < SIZE_MOD ∧ [93, 91].count 91 = [93, 91].count 93 ∧
      ¬ well_nested [93, 91] ∧
      (bfi_main 3 [93, 91] [] true true 5).outcome.completed = false ∧
      ∃ s, (bfi_main 3 [93, 91] [] true true 5).outcome = .failed .UnexpectedLoopEnd s ∨
        (bfi_main 3 [93, 91] [] true true 5).outcome = .out_of_fuel s) :=
  have hwn : well_nested [91, 93] := ⟨by decide, by decide⟩
  have hnw : ¬ well_nested [93, 91] := fun h => absurd (h.2 1 (by decide)) (by decide)
  ⟨⟨by decide, by decide, by decide, hwn,
      (nesting_and_outcome 3 [91, 93] [] (by decide) (by decide) (by decide)).1 hwn
        true true 5⟩,
    ⟨by decide, by decide, hnw,
      ((nesting_and_outcome 3 [93, 91] [] (by decide) (by decide) (by decide)).2 hnw
        true true 5).1,
      ((nesting_and_outcome 3 [93, 91] [] (by decide) (by decide) (by decide)).2 hnw
        true true 5).2 rfl⟩⟩


/-! ## Comments are passed over -/

theorem strip_append (a b : List Nat) :
    strip_comments (a ++ b) = strip_comments a ++ strip_comments b := by
  simp [strip_comments]

theorem strip_cons_instr {c : Nat} (bs : List Nat) (h : is_instr c = true) :
    strip_comments (c :: bs) = c :: strip_comments bs := by
  simp [strip_comments, h]

theorem strip_split (src : List Nat) (i : Nat) :
    strip_comments src = strip_comments (src.take i) ++ strip_comments (src.drop i) := by
  rw [← strip_append, List.take_append_drop]

theorem drop_eq_cons {src : List Nat} {i c : Nat} (h : src[i]? = some c) :
    src.drop i = c :: src.drop (i + 1) := by
  have hlt : i < src.length := by
    by_contra hge
    rw [List.getElem?_eq_none (by omega)] at h
    cases h
  rw [List.drop_eq_getElem_cons hlt]
  rw [List.getElem?_eq_getElem hlt] at h
  cases h
  rfl

theorem strip_pos_natCast (src : List Nat) (i : Nat) :
    strip_pos src (i : Int) = ((strip_comments (src.take i)).length : Int) := by
  simp [strip_pos]

theorem strip_pos_lt {src : List Nat} {i c : Nat} (h : src[i]? = some c)
    (hc : is_instr c = true) :
    strip_pos src (i : Int) < ((strip_comments src).length : Int) := by
  rw [strip_pos_natCast, strip_split src i, drop_eq_cons h, strip_cons_instr _ hc]
  simp only [List.length_append, List.length_cons]
  push_cast
  omega

theorem prepend_flatten : ∀ (cur : List Item) (q : Prog),
    (Prog.prepend cur q).flatten = items_bytes cur ++ q.flatten := by
  intro cur
  induction cur with
  | nil => intro q; simp [Prog.prepend, items_bytes, Prog.flatten]
  | cons it items ih =>
    intro q
    cases it with
    | op c =>
      have h1 : items_bytes (Item.op c :: items) = items_bytes items ++ [c] := by
        unfold items_bytes
        rw [Prog.prepend, ih]
        rfl
      rw [Prog.prepend, ih, h1]
      simp [Prog.flatten]
    | loop body =>
      have h1 : items_bytes (Item.loop body :: items)
          = items_bytes items ++ (91 :: (body.flatten ++ [93])) := by
        unfold items_bytes
        rw [Prog.prepend, ih]
        rfl
      rw [Prog.prepend, ih, h1]
      simp [Prog.flatten]

theorem items_bytes_nil : items_bytes [] = [] := rfl

theorem items_bytes_op (c : Nat) (items : List Item) :
    items_bytes (Item.op c :: items) = items_bytes items ++ [c] := by
  unfold items_bytes
  rw [Prog.prepend, prepend_flatten]
  rfl

theorem items_bytes_loop (body : Prog) (items : List Item) :
    items_bytes (Item.loop body :: items) = items_bytes items ++ (91 :: (body.flatten ++ [93])) := by
  unfold items_bytes
  rw [Prog.prepend, prepend_flatten]
  rfl

theorem prepend_wf : ∀ (cur : List Item) (q : Prog),
    (∀ it ∈ cur, it.wf) → q.wf → (Prog.prepend cur q).wf := by
  intro cur
  induction cur with
  | nil => intro q _ hq; exact hq
  | cons it items ih =>
    intro q hcur hq
    have hit := hcur it (List.mem_cons_self _ _)
    have hitems : ∀ x ∈ items, x.wf := fun x hx => hcur x (List.mem_cons_of_mem _ hx)
    cases it with
    | op c =>
      rw [Prog.prepend]
      exact ih _ hitems ⟨hit.1, hit.2, hq⟩
    | loop body =>
      rw [Prog.prepend]
      exact ih _ hitems ⟨hit, hq⟩

theorem parse_go_cons (c : Nat) (cs : List Nat) (cur : List Item) (stk : List (List Item)) :
    parse_go (c :: cs) cur stk =
      if c = 91 then parse_go cs [] (cur :: stk)
      else if c = 93 then
        match stk with
        | [] => none
        | outer :: stk' => parse_go cs (.loop (Prog.prepend cur .done) :: outer) stk'
      else parse_go cs (.op c :: cur) stk := by
  cases stk <;> simp [parse_go]

theorem parse_go_sound : ∀ (cs : List Nat) (cur : List Item) (stk : List (List Item))
    (p : Prog), parse_go cs cur stk = some p →
    p.flatten = enclosing_bytes stk ++ (items_bytes cur ++ cs) ∧
    ((∀ it ∈ cur, it.wf) → (∀ l ∈ stk, ∀ it ∈ l, it.wf) → p.wf) := by
  intro cs
  induction cs with
  | nil =>
    intro cur stk p h
    cases stk with
    | nil =>
      simp only [parse_go, Option.some.injEq] at h
      subst h
      refine ⟨?_, fun hcur _ => prepend_wf cur .done hcur trivial⟩
      simp [enclosing_bytes, items_bytes]
    | cons outer stk' => simp [parse_go] at h
  | cons c cs ih =>
    intro cur stk p h
    rw [parse_go_cons] at h
    by_cases h91 : c = 91
    · subst h91
      rw [if_pos rfl] at h
      obtain ⟨hf, hw⟩ := ih [] (cur :: stk) p h
      refine ⟨?_, fun hcur hstk => hw (by simp) ?_⟩
      · rw [hf]
        simp [enclosing_bytes, items_bytes_nil]
      · intro l hl
        rcases List.mem_cons.mp hl with rfl | hl'
        · exact hcur
        · exact hstk l hl'
    · rw [if_neg h91] at h
      by_cases h93 : c = 93
      · subst h93
        rw [if_pos rfl] at h
        cases stk with
        | nil => simp at h
        | cons outer stk' =>
          simp only at h
          obtain ⟨hf, hw⟩ := ih _ stk' p h
          refine ⟨?_, fun hcur hstk => hw ?_ ?_⟩
          · rw [hf, items_bytes_loop]
            simp [enclosing_bytes, items_bytes]
          · intro it hit
            rcases List.mem_cons.mp hit with rfl | hit'
            · exact prepend_wf cur .done hcur trivial
            · exact hstk outer (List.mem_cons_self _ _) it hit'
          · intro l hl
            exact hstk l (List.mem_cons_of_mem _ hl)
      · rw [if_neg h93] at h
        obtain ⟨hf, hw⟩ := ih _ stk p h
        refine ⟨?_, fun hcur hstk => hw ?_ hstk⟩
        · rw [hf, items_bytes_op]
          simp
        · intro it hit
          rcases List.mem_cons.mp hit with rfl | hit'
          · exact ⟨h91, h93⟩
          · exact hcur it hit'

theorem parse_go_complete : ∀ (cs : List Nat) (cur : List Item) (stk : List (List Item)),
    (stk.length : Int) + balance cs = 0 →
    (∀ k, k ≤ cs.length → 0 ≤ (stk.length : Int) + balance (cs.take k)) →
    ∃ p, parse_go cs cur stk = some p := by
  intro cs
  induction cs with
  | nil =>
    intro cur stk hz _
    rw [balance_nil] at hz
    have : stk.length = 0 := by omega
    rw [List.length_eq_zero.mp this]
    exact ⟨_, rfl⟩
  | cons c cs ih =>
    intro cur stk hz hpre
    rw [balance_cons] at hz
    have hsplit : ∀ k, balance ((c :: cs).take (k + 1)) = balance [c] + balance (cs.take k) := by
      intro k
      rw [List.take_succ_cons, balance_cons]
    rw [parse_go_cons]
    by_cases h91 : c = 91
    · subst h91
      rw [if_pos rfl]
      rw [balance_open] at hz hsplit
      apply ih
      · simp only [List.length_cons]; push_cast; omega
      · intro k hk
        have := hpre (k + 1) (by simp only [List.length_cons]; omega)
        rw [hsplit] at this
        simp only [List.length_cons]; push_cast; omega
    · rw [if_neg h91]
      by_cases h93 : c = 93
      · subst h93
        rw [if_pos rfl]
        rw [balance_close] at hz hsplit
        have h1 := hpre 1 (by simp)
        rw [hsplit 0] at h1
        simp only [List.take_zero, balance_nil, add_zero] at h1
        cases stk with
        | nil => simp at h1
        | cons outer stk' =>
          simp only [List.length_cons] at hz h1 hpre
          push_cast at hz h1 hpre
          apply ih
          · omega
          · intro k hk
            have := hpre (k + 1) (by omega)
            rw [hsplit] at this
            omega
      · rw [if_neg h93]
        rw [balance_plain h91 h93] at hz hsplit
        apply ih
        · omega
        · intro k hk
          have := hpre (k + 1) (by simp only [List.length_cons]; omega)
          rw [hsplit] at this
          omega

theorem parse_well_nested {src : List Nat} (hwn : well_nested src) :
    ∃ p, parse src = some p ∧ p.flatten = src ∧ p.wf := by
  obtain ⟨p, hp⟩ := parse_go_complete src [] [] (by simpa using hwn.1)
    (fun k hk => by simpa using hwn.2 k hk)
  obtain ⟨hf, hw⟩ := parse_go_sound src [] [] p hp
  refine ⟨p, hp, ?_, hw (by simp) (by simp)⟩
  rw [hf]
  simp [enclosing_bytes, items_bytes_nil]


/-! ## Structured programs and the dispatch loop -/

theorem balance_take_all (l : List Nat) (k : Nat) (h : l.length ≤ k) :
    balance (l.take k) = balance l := by
  rw [List.take_of_length_le h]

theorem flatten_balanced : ∀ (p : Prog), p.wf →
    balance p.flatten = 0 ∧ ∀ k, 0 ≤ balance (p.flatten.take k) := by
  intro p
  induction p with
  | done => intro _; simp [Prog.flatten, balance_nil]
  | op c rest ih =>
    intro hw
    obtain ⟨h91, h93, hrest⟩ := hw
    obtain ⟨hz, hpre⟩ := ih hrest
    have hc := balance_plain h91 h93
    refine ⟨?_, ?_⟩
    · rw [Prog.flatten, balance_cons, hc, hz]; rfl
    · intro k
      cases k with
      | zero => simp [balance_nil]
      | succ k =>
        rw [Prog.flatten, List.take_succ_cons, balance_cons, hc]
        have := hpre k
        omega
  | loop body rest ihb ihr =>
    intro hw
    obtain ⟨hzb, hpb⟩ := ihb hw.1
    obtain ⟨hzr, hpr⟩ := ihr hw.2
    refine ⟨?_, ?_⟩
    · rw [Prog.flatten, balance_cons 91, balance_append, balance_cons 93, balance_open,
        balance_close, hzb, hzr]
      rfl
    · intro k
      cases k with
      | zero => simp [balance_nil]
      | succ k =>
        rw [Prog.flatten, List.take_succ_cons, balance_cons 91, balance_open,
          List.take_append_eq_append_take, balance_append]
        by_cases hk : k ≤ body.flatten.length
        · have e : k - body.flatten.length = 0 := by omega
          rw [e]
          simp only [List.take_zero, balance_nil, add_zero]
          have := hpb k
          omega
        · obtain ⟨j, hj⟩ : ∃ j, k - body.flatten.length = j + 1 :=
            ⟨k - body.flatten.length - 1, by omega⟩
          rw [hj, List.take_succ_cons, balance_cons 93, balance_close,
            balance_take_all _ k (by omega), hzb]
          have := hpr j
          omega

theorem src_at_segment (pre : List Nat) (c : Nat) (tail : List Nat) :
    src_at (pre ++ c :: tail) (pre.length : Int) = some c := by
  rw [src_at_natCast, List.getElem?_append_right (le_refl _)]
  simp

theorem drop_segment (pre : List Nat) (c : Nat) (tail : List Nat) :
    (pre ++ c :: tail).drop (pre.length + 1) = tail := by
  rw [List.drop_append]
  rfl

theorem exec_op_data_ptr {N : Nat} (c : Nat) {m : Mem} (hp : m.data_ptr < N) :
    (exec_op N c m).data_ptr < N := by
  unfold exec_op
  split_ifs
  all_goals try split
  all_goals first
    | exact hp
    | (show m.data_ptr + 1 < N; omega)
    | (show m.data_ptr - 1 < N; omega)
    | (show N - 1 < N; omega)
    | (show 0 < N; omega)

theorem step_op {N : Nat} {src : List Nat} {a : Int} {st : List Int} {m : Mem} {c : Nat}
    (hat : src_at src a = some c) (h91 : c ≠ 91) (h93 : c ≠ 93) (hp : m.data_ptr < N) :
    step N src (mk_state a st m) = .next (mk_state (a + 1) st (exec_op N c m)) := by
  have hat' : src_at src (mk_state a st m).src_iter = some c := hat
  have hne : m.data_ptr ≠ N := by omega
  have hnlt : ¬ N < m.data_ptr := by omega
  rw [step_of_byte hat']
  rcases byte_cases c with rfl | rfl | rfl | rfl | rfl | rfl | rfl | rfl | ⟨h1, h2, h3, h4, h5, h6, h7, h8⟩
  · rw [dispatch_incr]
    show (if m.data_ptr = N then _ else if N < m.data_ptr then _ else _) = _
    rw [if_neg hne, if_neg hnlt]
    rfl
  · rw [dispatch_decr]
    show (if m.data_ptr = N then _ else if N < m.data_ptr then _ else _) = _
    rw [if_neg hne, if_neg hnlt]
    rfl
  · rw [dispatch_right]
    show (if m.data_ptr = N - 1 then _ else _) = _
    unfold exec_op
    simp only [show (62 : Nat) ≠ 43 by decide, show (62 : Nat) ≠ 45 by decide, if_false, if_true]
    split_ifs <;> rfl
  · rw [dispatch_left]
    show (if m.data_ptr = 0 then _ else _) = _
    unfold exec_op
    simp only [show (60 : Nat) ≠ 43 by decide, show (60 : Nat) ≠ 45 by decide,
      show (60 : Nat) ≠ 62 by decide, if_false, if_true]
    split_ifs <;> rfl
  · rw [dispatch_put]
    show (if m.data_ptr = N then _ else if N < m.data_ptr then _ else _) = _
    rw [if_neg hne, if_neg hnlt]
    rfl
  · rw [dispatch_get]
    show (if m.data_ptr = N then _ else _) = _
    rw [if_neg hne]
    show (match m.input with
      | [] => _
      | b :: rest => if N < m.data_ptr then _ else _) = _
    unfold exec_op
    simp only [show (44 : Nat) ≠ 43 by decide, show (44 : Nat) ≠ 45 by decide,
      show (44 : Nat) ≠ 62 by decide, show (44 : Nat) ≠ 60 by decide,
      show (44 : Nat) ≠ 46 by decide, if_false, if_true]
    cases hin : m.input with
    | nil => simp only [mk_state, hin]
    | cons b rest => simp only [mk_state, if_neg hnlt]
  · exact absurd rfl h91
  · exact absurd rfl h93
  · rw [dispatch_other N src _ c h1 h2 h3 h4 h5 h6 h7 h8]
    unfold exec_op
    rw [if_neg h1, if_neg h2, if_neg h3, if_neg h4, if_neg h5, if_neg h6]
    rfl

theorem step_open_enter {N : Nat} {src : List Nat} {a : Int} {st : List Int} {m : Mem}
    (hat : src_at src a = some 91) (hp : m.data_ptr < N) (hcell : m.mem_buf m.data_ptr ≠ 0) :
    step N src (mk_state a st m) = .next (mk_state (a + 1) (a :: st) m) := by
  have hat' : src_at src (mk_state a st m).src_iter = some 91 := hat
  rw [step_of_byte hat', dispatch_open]
  show (if m.data_ptr = N then _ else if N < m.data_ptr then _
    else if m.mem_buf m.data_ptr ≠ 0 then _ else _) = _
  rw [if_neg (by omega), if_neg (by omega), if_pos hcell]
  rfl

theorem step_open_skip {N : Nat} {src : List Nat} {a : Nat} {st : List Int} {m : Mem} {j : Int}
    (hat : src_at src (a : Int) = some 91) (hp : m.data_ptr < N)
    (hcell : m.mem_buf m.data_ptr = 0)
    (hskip : skip_loop (src.drop (a + 1)) (a : Int) 1 = some j) :
    step N src (mk_state (a : Int) st m) = .next (mk_state (j + 1) st m) := by
  have hat' : src_at src (mk_state (a : Int) st m).src_iter = some 91 := hat
  rw [step_of_byte hat', dispatch_open]
  dsimp only [mk_state]
  rw [if_neg (by omega), if_neg (by omega), if_neg (by simp [hcell])]
  simp only [Int.toNat_ofNat]
  rw [hskip]

theorem step_close {N : Nat} {src : List Nat} {a p : Int} {st : List Int} {m : Mem}
    (hat : src_at src a = some 93) :
    step N src (mk_state a (p :: st) m) = .next (mk_state p st m) := by
  have hat' : src_at src (mk_state a (p :: st) m).src_iter = some 93 := hat
  rw [step_of_byte hat', dispatch_close]
  show StepResult.next _ = _
  simp only [sub_add_cancel]
  rfl

theorem run_reaches_refl (N : Nat) (src : List Nat) (s : State) : run_reaches N src 0 s s := by
  intro fuel
  rw [Nat.zero_add]

theorem run_reaches_step {N : Nat} {src : List Nat} {s s' : State}
    (h : step N src s = .next s') : run_reaches N src 1 s s' := by
  intro fuel
  rw [Nat.add_comm, run_loop_next fuel h]

theorem run_reaches_trans {N : Nat} {src : List Nat} {k1 k2 : Nat} {s1 s2 s3 : State}
    (h1 : run_reaches N src k1 s1 s2) (h2 : run_reaches N src k2 s2 s3) :
    run_reaches N src (k1 + k2) s1 s3 := by
  intro fuel
  rw [Nat.add_assoc, h1, h2]

theorem exec_mono (N : Nat) : ∀ (f : Nat) (p : Prog) (m m' : Mem) (f' : Nat),
    exec N f p m = some m' → f ≤ f' → exec N f' p m = some m' := by
  intro f
  induction f with
  | zero => intro p m m' f' h; simp [exec] at h
  | succ f ih =>
    intro p m m' f' h hle
    obtain ⟨g, rfl⟩ : ∃ g, f' = g + 1 := ⟨f' - 1, by omega⟩
    cases p with
    | done => simpa [exec] using h
    | op c rest =>
      rw [exec] at h ⊢
      exact ih _ _ _ g h (by omega)
    | loop body rest =>
      rw [exec] at h ⊢
      split_ifs at h ⊢ with hcell
      · exact ih _ _ _ g h (by omega)
      · cases hb : exec N f body m with
        | none => rw [hb] at h; cases h
        | some m1 =>
          rw [hb] at h
          rw [ih _ _ _ g hb (by omega)]
          exact ih _ _ _ g h (by omega)


theorem skip_loop_body {body : Prog} (hw : body.wf) (tail : List Nat) (it : Int)
    (hlen : 1 + (body.flatten ++ 93 :: tail).length < SIZE_MOD) :
    skip_loop (body.flatten ++ 93 :: tail) it 1 = some (it + (body.flatten.length : Int) + 1) := by
  obtain ⟨hz, hpre⟩ := flatten_balanced body hw
  apply skip_loop_first_zero (body.flatten ++ 93 :: tail) it 1 body.flatten.length (le_refl 1) hlen
  · simp
  · intro k hk
    have e : (body.flatten ++ 93 :: tail).take (k + 1) = body.flatten.take (k + 1) := by
      rw [List.take_append_of_le_length (by omega)]
    rw [e]
    have := hpre (k + 1)
    unfold balance at this
    push_cast
    omega
  · have e : (body.flatten ++ 93 :: tail).take (body.flatten.length + 1)
        = body.flatten ++ [93] := by
      rw [List.take_append]
      simp
    rw [e]
    have h1 : balance (body.flatten ++ [93]) = -1 := by
      rw [balance_append, balance_close, hz]; rfl
    unfold balance at h1
    push_cast
    omega

theorem exec_run (N : Nat) : ∀ (fuel : Nat) (p : Prog) (m m' : Mem) (pre post : List Nat)
    (st : List Int), p.wf → m.data_ptr < N →
    (pre ++ (p.flatten ++ post)).length < SIZE_MOD → exec N fuel p m = some m' →
    m'.data_ptr < N ∧ ∃ k, run_reaches N (pre ++ (p.flatten ++ post)) k
      (mk_state (pre.length : Int) st m)
      (mk_state ((pre.length : Int) + (p.flatten.length : Int)) st m') := by
  intro fuel
  induction fuel with
  | zero => intro p m m' pre post st _ _ _ h; simp [exec] at h
  | succ f ih =>
    intro p m m' pre post st hw hp hlen h
    cases p with
    | done =>
      simp only [exec, Option.some.injEq] at h
      subst h
      refine ⟨hp, 0, ?_⟩
      simp only [Prog.flatten, List.length_nil, Nat.cast_zero, add_zero]
      exact run_reaches_refl _ _ _
    | op c rest =>
      rw [exec] at h
      obtain ⟨h91, h93, hwr⟩ := hw
      have e : (pre ++ [c]) ++ (rest.flatten ++ post)
          = pre ++ ((Prog.op c rest).flatten ++ post) := by simp [Prog.flatten]
      have hat : src_at (pre ++ ((Prog.op c rest).flatten ++ post)) (pre.length : Int)
          = some c := by
        have := src_at_segment pre c (rest.flatten ++ post)
        simpa [Prog.flatten] using this
      have hstep := @step_op N _ (pre.length : Int) st m c hat h91 h93 hp
      obtain ⟨hm', k, hk⟩ := ih rest (exec_op N c m) m' (pre ++ [c]) post st hwr
        (exec_op_data_ptr c hp) (by rw [e]; exact hlen) h
      rw [e] at hk
      refine ⟨hm', 1 + k, ?_⟩
      have e1 : (((pre ++ [c]).length : Nat) : Int) = (pre.length : Int) + 1 := by simp
      have e2 : (((Prog.op c rest).flatten.length : Nat) : Int)
          = 1 + (rest.flatten.length : Int) := by
        simp [Prog.flatten]; ring
      rw [e1] at hk
      rw [e2, ← add_assoc]
      exact run_reaches_trans (run_reaches_step hstep) hk
    | loop body rest =>
      rw [exec] at h
      obtain ⟨hwb, hwr⟩ := hw
      have hsrc : pre ++ ((Prog.loop body rest).flatten ++ post)
          = pre ++ 91 :: (body.flatten ++ 93 :: (rest.flatten ++ post)) := by
        simp [Prog.flatten]
      have hat : src_at (pre ++ ((Prog.loop body rest).flatten ++ post)) (pre.length : Int)
          = some 91 := by
        rw [hsrc]; exact src_at_segment pre 91 _
      have e2 : (((Prog.loop body rest).flatten.length : Nat) : Int)
          = 1 + (body.flatten.length : Int) + 1 + (rest.flatten.length : Int) := by
        simp [Prog.flatten]; ring
      have hlen' := hlen
      rw [hsrc] at hlen'
      simp only [List.length_append, List.length_cons] at hlen'
      split_ifs at h with hcell
      · -- the loop is skipped
        have hskip : skip_loop ((pre ++ ((Prog.loop body rest).flatten ++ post)).drop
            (pre.length + 1)) (pre.length : Int) 1
            = some ((pre.length : Int) + (body.flatten.length : Int) + 1) := by
          rw [hsrc, drop_segment]
          exact skip_loop_body hwb _ _
            (by simp only [List.length_append, List.length_cons]; omega)
        have hstep := @step_open_skip N _ pre.length st m _ hat hp hcell hskip
        have e : (pre ++ 91 :: (body.flatten ++ [93])) ++ (rest.flatten ++ post)
            = pre ++ ((Prog.loop body rest).flatten ++ post) := by simp [Prog.flatten]
        obtain ⟨hm', k, hk⟩ := ih rest m m' (pre ++ 91 :: (body.flatten ++ [93])) post st hwr
          hp (by rw [e]; exact hlen) h
        rw [e] at hk
        have e1 : (((pre ++ 91 :: (body.flatten ++ [93])).length : Nat) : Int)
            = (pre.length : Int) + (body.flatten.length : Int) + 1 + 1 := by
          simp; ring
        rw [e1] at hk
        refine ⟨hm', 1 + k, ?_⟩
        have e3 : (pre.length : Int) + (1 + (body.flatten.length : Int) + 1
            + (rest.flatten.length : Int))
            = (pre.length : Int) + (body.flatten.length : Int) + 1 + 1
              + (rest.flatten.length : Int) := by ring
        rw [e2, e3]
        exact run_reaches_trans (run_reaches_step hstep) hk
      · -- the loop is entered
        cases hb : exec N f body m with
        | none => rw [hb] at h; cases h
        | some m1 =>
          rw [hb] at h
          simp only at h
          have hstep1 := @step_open_enter N _ (pre.length : Int) st m hat hp hcell
          have eb : (pre ++ [91]) ++ (body.flatten ++ (93 :: (rest.flatten ++ post)))
              = pre ++ ((Prog.loop body rest).flatten ++ post) := by simp [Prog.flatten]
          obtain ⟨hm1, k1, hk1⟩ := ih body m m1 (pre ++ [91]) (93 :: (rest.flatten ++ post))
            ((pre.length : Int) :: st) hwb hp (by rw [eb]; exact hlen) hb
          rw [eb] at hk1
          have e1 : (((pre ++ [91]).length : Nat) : Int) = (pre.length : Int) + 1 := by simp
          rw [e1] at hk1
          have hat2 : src_at (pre ++ ((Prog.loop body rest).flatten ++ post))
              ((pre.length : Int) + 1 + (body.flatten.length : Int)) = some 93 := by
            have := src_at_segment (pre ++ 91 :: body.flatten) 93 (rest.flatten ++ post)
            have e4 : (((pre ++ 91 :: body.flatten).length : Nat) : Int)
                = (pre.length : Int) + 1 + (body.flatten.length : Int) := by
              simp; ring
            rw [e4] at this
            rw [hsrc]
            simpa using this
          have hstep2 := @step_close N _ _ (pre.length : Int) st m1 hat2
          obtain ⟨hm', k2, hk2⟩ := ih (Prog.loop body rest) m1 m' pre post st ⟨hwb, hwr⟩ hm1
            hlen h
          refine ⟨hm', 1 + k1 + 1 + k2, ?_⟩
          exact run_reaches_trans (run_reaches_trans (run_reaches_trans
            (run_reaches_step hstep1) hk1) (run_reaches_step hstep2)) hk2


theorem run_loop_zero_ne_finished {N : Nat} {src : List Nat} {s sf : State}
    (h : run_loop N src 0 s = .finished sf) : False := by
  cases h

theorem run_exec (N : Nat) : ∀ (n : Nat) (p : Prog) (m : Mem) (pre post : List Nat)
    (st : List Int) (sf : State), p.wf → m.data_ptr < N →
    (pre ++ (p.flatten ++ post)).length < SIZE_MOD →
    run_loop N (pre ++ (p.flatten ++ post)) n (mk_state (pre.length : Int) st m)
      = .finished sf →
    ∃ (k : Nat) (m' : Mem) (f : Nat), k ≤ n ∧ exec N f p m = some m' ∧ m'.data_ptr < N ∧
      run_loop N (pre ++ (p.flatten ++ post)) (n - k)
        (mk_state ((pre.length : Int) + (p.flatten.length : Int)) st m') = .finished sf := by
  intro n
  induction n using Nat.strong_induction_on with
  | _ n ih =>
    intro p m pre post st sf hw hp hlen hrun
    cases p with
    | done =>
      refine ⟨0, m, 1, by omega, rfl, hp, ?_⟩
      simp only [Prog.flatten, List.length_nil, Nat.cast_zero, add_zero, Nat.sub_zero]
      exact hrun
    | op c rest =>
      obtain ⟨n1, rfl⟩ : ∃ n1, n = n1 + 1 := by
        cases n with
        | zero => exact absurd hrun (fun h => run_loop_zero_ne_finished h)
        | succ n1 => exact ⟨n1, rfl⟩
      obtain ⟨h91, h93, hwr⟩ := hw
      have e : (pre ++ [c]) ++ (rest.flatten ++ post)
          = pre ++ ((Prog.op c rest).flatten ++ post) := by simp [Prog.flatten]
      have hat : src_at (pre ++ ((Prog.op c rest).flatten ++ post)) (pre.length : Int)
          = some c := by
        have := src_at_segment pre c (rest.flatten ++ post)
        simpa [Prog.flatten] using this
      have hstep := @step_op N _ (pre.length : Int) st m c hat h91 h93 hp
      rw [run_loop_next n1 hstep] at hrun
      have e1 : (((pre ++ [c]).length : Nat) : Int) = (pre.length : Int) + 1 := by simp
      have e2 : (((Prog.op c rest).flatten.length : Nat) : Int)
          = 1 + (rest.flatten.length : Int) := by
        simp [Prog.flatten]; ring
      rw [← e1, ← e] at hrun
      obtain ⟨k, m', f, hk, hex, hm', hfin⟩ := ih n1 (by omega) rest (exec_op N c m)
        (pre ++ [c]) post st sf hwr (exec_op_data_ptr c hp) (by rw [e]; exact hlen) hrun
      rw [e, e1] at hfin
      refine ⟨k + 1, m', f + 1, by omega, by rw [exec]; exact hex, hm', ?_⟩
      have e3 : n1 + 1 - (k + 1) = n1 - k := by omega
      rw [e3, e2, ← add_assoc]
      exact hfin
    | loop body rest =>
      obtain ⟨n1, rfl⟩ : ∃ n1, n = n1 + 1 := by
        cases n with
        | zero => exact absurd hrun (fun h => run_loop_zero_ne_finished h)
        | succ n1 => exact ⟨n1, rfl⟩
      obtain ⟨hwb, hwr⟩ := hw
      have hsrc : pre ++ ((Prog.loop body rest).flatten ++ post)
          = pre ++ 91 :: (body.flatten ++ 93 :: (rest.flatten ++ post)) := by
        simp [Prog.flatten]
      have hat : src_at (pre ++ ((Prog.loop body rest).flatten ++ post)) (pre.length : Int)
          = some 91 := by
        rw [hsrc]; exact src_at_segment pre 91 _
      have e2 : (((Prog.loop body rest).flatten.length : Nat) : Int)
          = 1 + (body.flatten.length : Int) + 1 + (rest.flatten.length : Int) := by
        simp [Prog.flatten]; ring
      have hlen' := hlen
      rw [hsrc] at hlen'
      simp only [List.length_append, List.length_cons] at hlen'
      by_cases hcell : m.mem_buf m.data_ptr = 0
      · -- the loop is skipped
        have hskip : skip_loop ((pre ++ ((Prog.loop body rest).flatten ++ post)).drop
            (pre.length + 1)) (pre.length : Int) 1
            = some ((pre.length : Int) + (body.flatten.length : Int) + 1) := by
          rw [hsrc, drop_segment]
          exact skip_loop_body hwb _ _
            (by simp only [List.length_append, List.length_cons]; omega)
        have hstep := @step_open_skip N _ pre.length st m _ hat hp hcell hskip
        rw [run_loop_next n1 hstep] at hrun
        have e : (pre ++ 91 :: (body.flatten ++ [93])) ++ (rest.flatten ++ post)
            = pre ++ ((Prog.loop body rest).flatten ++ post) := by simp [Prog.flatten]
        have e1 : (((pre ++ 91 :: (body.flatten ++ [93])).length : Nat) : Int)
            = (pre.length : Int) + (body.flatten.length : Int) + 1 + 1 := by
          simp; ring
        rw [← e1, ← e] at hrun
        obtain ⟨k, m', f, hk, hex, hm', hfin⟩ := ih n1 (by omega) rest m
          (pre ++ 91 :: (body.flatten ++ [93])) post st sf hwr hp (by rw [e]; exact hlen) hrun
        rw [e, e1] at hfin
        refine ⟨k + 1, m', f + 1, by omega, by rw [exec, if_pos hcell]; exact hex, hm', ?_⟩
        have e3 : n1 + 1 - (k + 1) = n1 - k := by omega
        have e4 : (pre.length : Int) + (1 + (body.flatten.length : Int) + 1
            + (rest.flatten.length : Int))
            = (pre.length : Int) + (body.flatten.length : Int) + 1 + 1
              + (rest.flatten.length : Int) := by ring
        rw [e3, e2, e4]
        exact hfin
      · -- the loop is entered
        have hstep1 := @step_open_enter N _ (pre.length : Int) st m hat hp hcell
        rw [run_loop_next n1 hstep1] at hrun
        have eb : (pre ++ [91]) ++ (body.flatten ++ (93 :: (rest.flatten ++ post)))
            = pre ++ ((Prog.loop body rest).flatten ++ post) := by simp [Prog.flatten]
        have e1 : (((pre ++ [91]).length : Nat) : Int) = (pre.length : Int) + 1 := by simp
        rw [← e1, ← eb] at hrun
        obtain ⟨k1, m1, f1, hk1, hex1, hm1, hfin1⟩ := ih n1 (by omega) body m (pre ++ [91])
          (93 :: (rest.flatten ++ post)) ((pre.length : Int) :: st) sf hwb hp
          (by rw [eb]; exact hlen) hrun
        rw [eb, e1] at hfin1
        have hat2 : src_at (pre ++ ((Prog.loop body rest).flatten ++ post))
            ((pre.length : Int) + 1 + (body.flatten.length : Int)) = some 93 := by
          have := src_at_segment (pre ++ 91 :: body.flatten) 93 (rest.flatten ++ post)
          have e4 : (((pre ++ 91 :: body.flatten).length : Nat) : Int)
              = (pre.length : Int) + 1 + (body.flatten.length : Int) := by
            simp; ring
          rw [e4] at this
          rw [hsrc]
          simpa using this
        have hstep2 := @step_close N _ _ (pre.length : Int) st m1 hat2
        obtain ⟨n2, hn2⟩ : ∃ n2, n1 - k1 = n2 + 1 := by
          cases hn : n1 - k1 with
          | zero => rw [hn] at hfin1; exact absurd hfin1 (fun h => run_loop_zero_ne_finished h)
          | succ n2 => exact ⟨n2, rfl⟩
        rw [hn2, run_loop_next n2 hstep2] at hfin1
        obtain ⟨k2, m', f2, hk2, hex2, hm', hfin2⟩ := ih n2 (by omega) (Prog.loop body rest) m1
          pre post st sf ⟨hwb, hwr⟩ hm1 hlen hfin1
        refine ⟨1 + k1 + 1 + k2, m', max f1 f2 + 1, by omega, ?_, hm', ?_⟩
        · rw [exec, if_neg hcell, exec_mono N f1 body m m1 (max f1 f2) hex1 (le_max_left _ _)]
          exact exec_mono N f2 _ m1 m' (max f1 f2) hex2 (le_max_right _ _)
        · have e3 : n1 + 1 - (1 + k1 + 1 + k2) = n2 - k2 := by omega
          rw [e3]
          exact hfin2


theorem init_state_eq (input : List Nat) :
    init_state input = mk_state ((([] : List Nat).length : Nat) : Int) [] (init_state input).mem :=
  rfl

theorem step_at_end {N : Nat} {src : List Nat} {st : List Int} {m : Mem} :
    step N src (mk_state (src.length : Int) st m) = .halt := by
  unfold step
  dsimp only [mk_state]
  rw [if_pos rfl]

theorem well_nested_run_ends {N : Nat} {src input : List Nat} (hN : 0 < N)
    (hlen : src.length < SIZE_MOD) (hwn : well_nested src) (fuel : Nat) :
    (run_loop N src fuel (init_state input)).completed = true ∨
      (run_loop N src fuel (init_state input)).ran_out = true := by
  have heq := well_nested_counts hwn
  have hreach := @run_loop_reachable N src input fuel (init_state input) Reachable.init
  cases hrun : run_loop N src fuel (init_state input) with
  | finished s => exact Or.inl rfl
  | out_of_fuel s => exact Or.inr rfl
  | undefined s =>
    rw [hrun] at hreach
    exact absurd (run_loop_undefined_step fuel _ s hrun)
      (reachable_step_defined hN hlen heq hreach)
  | failed d s =>
    rw [hrun] at hreach
    have hreach : Reachable N src input s := hreach
    have hstep := run_loop_failed_step fuel _ s _ hrun
    rcases step_fail_cases hstep with rfl | ⟨op, rfl⟩
    · obtain ⟨hc, hst⟩ := step_fail_loop_end hstep
      exact absurd hst (reachable_close_nonempty hlen hwn hreach hc)
    · have h1 := @reachable_data_ptr_lt N src input s hN hreach
      have h2 := step_fail_invalid hstep
      omega

/-- C20. For a well-nested source (shorter than 2^64 bytes), every input and a
tape of `N >= 1` cells, the source parses to a structured program whose bytes
are the source, and the dispatch loop agrees with the structured semantics of
that program run from the zeroed tape: if a run of `main` completes, the
structured program ends, within some fuel, with the same data pointer, cells,
unread input and output as the final state; if the structured program ends,
some run of `main` completes with exactly what the structured program ended
with.  A run of `main` on such a source never ends otherwise than by
completing: it completes or is still running when its passes are used up. -/
theorem structured_agreement (N : Nat) (src input : List Nat) (munmap_ok : Bool)
    (hN : 0 < N) (hlen : src.length < SIZE_MOD) (hwn : well_nested src) :
    ∃ p, parse src = some p ∧ p.flatten = src ∧
      (∀ fuel sf, (bfi_main N src input true munmap_ok fuel).outcome = .finished sf →
        ∃ f, exec N f p (init_state input).mem = some sf.mem) ∧
      (∀ f m', exec N f p (init_state input).mem = some m' →
        ∃ fuel sf, (bfi_main N src input true munmap_ok fuel).outcome = .finished sf ∧
          sf.mem = m') ∧
      (∀ fuel, (bfi_main N src input true munmap_ok fuel).outcome.completed = true ∨
        (bfi_main N src input true munmap_ok fuel).outcome.ran_out = true) := by
  obtain ⟨p, hparse, hflat, hwf⟩ := parse_well_nested hwn
  have heq := well_nested_counts hwn
  have hsrc : ([] : List Nat) ++ (p.flatten ++ []) = src := by simp [hflat]
  have hcur : ((([] : List Nat).length : Nat) : Int) + (p.flatten.length : Int)
      = (src.length : Int) := by
    rw [hflat]; simp
  refine ⟨p, hparse, hflat, ?_, ?_, ?_⟩
  · intro fuel sf hfin
    rw [bfi_main_balanced_outcome N src input munmap_ok fuel hlen heq, init_state_eq,
      ← hsrc] at hfin
    obtain ⟨k, m', f, _, hex, _, hend⟩ := run_exec N fuel p (init_state input).mem [] [] []
      sf hwf hN (by rw [hsrc]; exact hlen) hfin
    rw [hsrc, hcur] at hend
    refine ⟨f, ?_⟩
    rw [hex]
    cases hn : fuel - k with
    | zero => rw [hn] at hend; exact absurd hend (fun h => run_loop_zero_ne_finished h)
    | succ n =>
      rw [hn, run_loop_halt n step_at_end] at hend
      cases hend
      rfl
  · intro f m' hex
    obtain ⟨_, k, hk⟩ := exec_run N f p (init_state input).mem m' [] [] [] hwf hN
      (by rw [hsrc]; exact hlen) hex
    rw [hsrc, hcur, ← init_state_eq] at hk
    refine ⟨k + 1, mk_state (src.length : Int) [] m', ?_, rfl⟩
    rw [bfi_main_balanced_outcome N src input munmap_ok (k + 1) hlen heq, hk 1,
      run_loop_halt 0 step_at_end]
  · intro fuel
    rw [bfi_main_balanced_outcome N src input munmap_ok fuel hlen heq]
    exact well_nested_run_ends hN hlen hwn fuel

theorem structured_agreement_witness :
    0 < 3 ∧ [44, 91, 46, 45, 93].length < SIZE_MOD ∧ well_nested [44, 91, 46, 45, 93] ∧
    parse [44, 91, 46, 45, 93]
      = some (.op 44 (.loop (.op 46 (.op 45 .done)) .done)) ∧
    (exec 3 10 (.op 44 (.loop (.op 46 (.op 45 .done)) .done)) (init_state [2]).mem).map
      Mem.output = some [2, 1] ∧
    (bfi_main 3 [44, 91, 46, 45, 93] [2] true true 12).outcome.completed = true ∧
    (bfi_main 3 [44, 91, 46, 45, 93] [2] true true 12).outcome.state.output = [2, 1] ∧
    ∃ p, parse [44, 91, 46, 45, 93] = some p ∧ p.flatten = [44, 91, 46, 45, 93] ∧
      (∀ fuel sf, (bfi_main 3 [44, 91, 46, 45, 93] [2] true true fuel).outcome = .finished sf →
        ∃ f, exec 3 f p (init_state [2]).mem = some sf.mem) ∧
      (∀ f m', exec 3 f p (init_state [2]).mem = some m' →
        ∃ fuel sf, (bfi_main 3 [44, 91, 46, 45, 93] [2] true true fuel).outcome = .finished sf ∧
          sf.mem = m') ∧
      (∀ fuel, (bfi_main 3 [44, 91, 46, 45, 93] [2] true true fuel).outcome.completed = true ∨
        (bfi_main 3 [44, 91, 46, 45, 93] [2] true true fuel).outcome.ran_out = true) :=
  have hwn : well_nested [44, 91, 46, 45, 93] := ⟨by decide, by decide⟩
  ⟨by decide, by decide, hwn, by decide, by decide, by decide, by decide,
    structured_agreement 3 [44, 91, 46, 45, 93] [2] true (by decide) (by decide) hwn⟩

end BFI
